import Mathlib

/-!
Formal model of the shard-cache repository: the rendezvous-hashing ring
(internal/ring), the quorum client coordinator (internal/client), and the
LRU+TTL cache (internal/cache), with theorems checking the specification
claims against these models.

Modelling conventions.

Byte strings: Go strings and byte slices are byte sequences; they are
modelled as lists of naturals (each element a byte value).

MD5: Ring.hash is MD5 of the input followed by a big-endian read of the
first eight digest bytes; MD5 is implemented here in full so that hash
values are computed exactly as in the source.

Go map iteration order: Ring.Owners iterates the membership map in an
unspecified order before sorting, and sort.Slice is not stable, so tied
scores may come out in any order that varies call to call.  The model makes
the iteration order an explicit list parameter; the sort is modelled by a
stable insertion sort, so the set of outputs reachable by varying the order
parameter coincides with the set of outputs the Go code can produce (on
small inputs Go uses insertion sort, which is stable, so the map from
iteration order to output also matches).

Client coordinator: each per-replica RPC outcome (transport failure, or a
reply carrying the found/success/deleted flag) is a value of a small
response type supplied per node; timing-only behaviour (the read hedge,
which re-issues the same request to the same replica) is abstracted away
since both attempts target the same replica and return its reply.

Cache: Go *Entry pointers are modelled by the entry key.  This is sound
because the entries map admits at most one live entry per key, and the
doubly-linked-list consistency that pointer identity relies on is itself
part of the proved invariant.  The wall clock is an explicit parameter of
each operation; the Go zero time.Time (IsZero) is modelled by the value 0.
-/

abbrev Str := List Nat

deriving instance DecidableEq for Except

def strBytes (s : String) : Str := s.toList.map Char.toNat

def beU64 (bs : List Nat) : Nat := bs.foldl (fun acc b => acc * 256 + b) 0

namespace MD5

def w32 (x : Nat) : Nat := x % 4294967296

def rotl (x s : Nat) : Nat :=
  w32 (Nat.lor (Nat.shiftLeft x s) (Nat.shiftRight x (32 - s)))

def K : List Nat :=
  [0xd76aa478, 0xe8c7b756, 0x242070db, 0xc1bdceee,
   0xf57c0faf, 0x4787c62a, 0xa8304613, 0xfd469501,
   0x698098d8, 0x8b44f7af, 0xffff5bb1, 0x895cd7be,
   0x6b901122, 0xfd987193, 0xa679438e, 0x49b40821,
   0xf61e2562, 0xc040b340, 0x265e5a51, 0xe9b6c7aa,
   0xd62f105d, 0x02441453, 0xd8a1e681, 0xe7d3fbc8,
   0x21e1cde6, 0xc33707d6, 0xf4d50d87, 0x455a14ed,
   0xa9e3e905, 0xfcefa3f8, 0x676f02d9, 0x8d2a4c8a,
   0xfffa3942, 0x8771f681, 0x6d9d6122, 0xfde5380c,
   0xa4beea44, 0x4bdecfa9, 0xf6bb4b60, 0xbebfbc70,
   0x289b7ec6, 0xeaa127fa, 0xd4ef3085, 0x04881d05,
   0xd9d4d039, 0xe6db99e5, 0x1fa27cf8, 0xc4ac5665,
   0xf4292244, 0x432aff97, 0xab9423a7, 0xfc93a039,
   0x655b59c3, 0x8f0ccc92, 0xffeff47d, 0x85845dd1,
   0x6fa87e4f, 0xfe2ce6e0, 0xa3014314, 0x4e0811a1,
   0xf7537e82, 0xbd3af235, 0x2ad7d2bb, 0xeb86d391]

def S : List Nat :=
  [7, 12, 17, 22, 7, 12, 17, 22, 7, 12, 17, 22, 7, 12, 17, 22,
   5, 9, 14, 20, 5, 9, 14, 20, 5, 9, 14, 20, 5, 9, 14, 20,
   4, 11, 16, 23, 4, 11, 16, 23, 4, 11, 16, 23, 4, 11, 16, 23,
   6, 10, 15, 21, 6, 10, 15, 21, 6, 10, 15, 21, 6, 10, 15, 21]

def mask32 : Nat := 0xffffffff

def auxF (b c d : Nat) : Nat := Nat.lor (Nat.land b c) (Nat.land (Nat.xor b mask32) d)

def auxG (b c d : Nat) : Nat := Nat.lor (Nat.land d b) (Nat.land (Nat.xor d mask32) c)

def auxH (b c d : Nat) : Nat := Nat.xor (Nat.xor b c) d

def auxI (b c d : Nat) : Nat := Nat.xor c (Nat.lor b (Nat.xor d mask32))

def mix (i b c d : Nat) : Nat :=
  if i < 16 then auxF b c d
  else if i < 32 then auxG b c d
  else if i < 48 then auxH b c d
  else auxI b c d

def gidx (i : Nat) : Nat :=
  if i < 16 then i
  else if i < 32 then (5 * i + 1) % 16
  else if i < 48 then (3 * i + 5) % 16
  else (7 * i) % 16

def leWord (bs : List Nat) : Nat :=
  match bs with
  | b0 :: b1 :: b2 :: b3 :: _ => b0 + 256 * b1 + 65536 * b2 + 16777216 * b3
  | _ => 0

def word (block : List Nat) (i : Nat) : Nat := leWord (block.drop (4 * i))

def step (block : List Nat) (st : Nat × Nat × Nat × Nat) (i : Nat) : Nat × Nat × Nat × Nat :=
  match st with
  | (a, b, c, d) =>
    let f := w32 (a + mix i b c d + K.getD i 0 + word block (gidx i))
    (d, w32 (b + rotl f (S.getD i 0)), b, c)

def processBlock (st : Nat × Nat × Nat × Nat) (block : List Nat) : Nat × Nat × Nat × Nat :=
  match st, (List.range 64).foldl (step block) st with
  | (a0, b0, c0, d0), (a, b, c, d) => (w32 (a0 + a), w32 (b0 + b), w32 (c0 + c), w32 (d0 + d))

def chunksGo : Nat → List Nat → List (List Nat)
  | 0, _ => []
  | _ + 1, [] => []
  | fuel + 1, b :: bs => (b :: bs).take 64 :: chunksGo fuel ((b :: bs).drop 64)

def chunks (bs : List Nat) : List (List Nat) := chunksGo bs.length bs

def lenBytes (len : Nat) : List Nat :=
  let L := (len * 8) % 18446744073709551616
  [L % 256, L / 256 % 256, L / 65536 % 256, L / 16777216 % 256,
   L / 4294967296 % 256, L / 1099511627776 % 256,
   L / 281474976710656 % 256, L / 72057594037927936 % 256]

def pad (msg : List Nat) : List Nat :=
  let k := (119 - msg.length % 64) % 64
  msg ++ 128 :: List.replicate k 0 ++ lenBytes msg.length

def leBytes (x : Nat) : List Nat :=
  [x % 256, x / 256 % 256, x / 65536 % 256, x / 16777216 % 256]

def md5 (msg : List Nat) : List Nat :=
  match (chunks (pad msg)).foldl processBlock (0x67452301, 0xefcdab89, 0x98badcfe, 0x10325476) with
  | (a, b, c, d) => leBytes a ++ leBytes b ++ leBytes c ++ leBytes d

end MD5

namespace Ring

/-- Model of ring.Node: an identity and a transport address. -/
structure Node where
  ID : Str
  Addr : Str
deriving DecidableEq

/-- Model of Ring.hash: MD5 of the input, big-endian read of the first
eight digest bytes (binary.BigEndian.Uint64 of md5.Sum bytes 0..7). -/
def hash (input : Str) : Nat := beU64 ((MD5.md5 input).take 8)

/-- The rendezvous score of a node for a key: hash of key concatenated
with the node identity, exactly as Owners computes it. -/
def scoreOf (key : Str) (nd : Node) : Nat := hash (key ++ nd.ID)

/-- The scored list Owners builds before sorting. -/
def scoresOf (order : List Node) (key : Str) : List (Node × Nat) :=
  order.map (fun nd => (nd, hash (key ++ nd.ID)))

/-- The comparator sort.Slice is given in Owners, as a non-strict relation
suitable for a stable sort: a sorts no later than b when the score of b is
at most the score of a. -/
def scoreGe (a b : Node × Nat) : Prop := b.2 ≤ a.2

instance : DecidableRel scoreGe := fun a b => inferInstanceAs (Decidable (b.2 ≤ a.2))

instance : IsTotal (Node × Nat) scoreGe := ⟨fun a b => Nat.le_total b.2 a.2⟩

instance : IsTrans (Node × Nat) scoreGe := ⟨fun _ _ _ h1 h2 => Nat.le_trans h2 h1⟩

/-- Strict score-descending relation, used to state that sorted score
lists are unique when scores are pairwise distinct. -/
def scoreGt (a b : Node × Nat) : Prop := b.2 < a.2

instance : IsAntisymm (Node × Nat) scoreGt :=
  ⟨fun _ _ h1 h2 => absurd (lt_trans h1 h2) (lt_irrefl _)⟩

/-- Model of Ring.Owners.  The membership map is given by its iteration
order as a list of nodes (pairwise-distinct identities in any reachable
ring).  Returns none exactly when the Go code panics: a negative count n
reaches make with a negative length whenever the membership is nonempty
(an empty membership returns nil before the count is used). -/
def Owners (order : List Node) (key : Str) (n : Int) : Option (List Node) :=
  if order.length = 0 then some []
  else
    let m : Int := if (order.length : Int) < n then (order.length : Int) else n
    if m < 0 then none
    else some (((List.insertionSort scoreGe (scoresOf order key)).take m.toNat).map Prod.fst)

/-- Relation following the specification words for claim C3: sort by score
descending, breaking score ties by lexicographic order on node identity. -/
def specLe (a b : Node × Nat) : Prop := b.2 < a.2 ∨ (a.2 = b.2 ∧ a.1.ID ≤ b.1.ID)

instance : DecidableRel specLe :=
  fun a b => inferInstanceAs (Decidable (b.2 < a.2 ∨ (a.2 = b.2 ∧ a.1.ID ≤ b.1.ID)))

instance : IsTotal (Node × Nat) specLe := by
  constructor
  intro a b
  rcases Nat.lt_trichotomy a.2 b.2 with h | h | h
  · exact Or.inr (Or.inl h)
  · rcases le_total a.1.ID b.1.ID with h2 | h2
    · exact Or.inl (Or.inr ⟨h, h2⟩)
    · exact Or.inr (Or.inr ⟨h.symm, h2⟩)
  · exact Or.inl (Or.inl h)

instance : IsTrans (Node × Nat) specLe := by
  constructor
  intro a b c hab hbc
  rcases hab with h1 | ⟨h1, h1l⟩
  · rcases hbc with h2 | ⟨h2, _⟩
    · exact Or.inl (lt_trans h2 h1)
    · exact Or.inl (h2 ▸ h1)
  · rcases hbc with h2 | ⟨h2, h2l⟩
    · exact Or.inl (h1 ▸ h2)
    · exact Or.inr ⟨h1.trans h2, le_trans h1l h2l⟩

/-- Definition following the specification words of claim C3 (a candidate
Owners): score each node by hash of key and identity, sort by score
descending with ties broken by lexicographic order on node identity, and
return the first min(n, membership size) nodes. -/
def specOwners (membership : List Node) (key : Str) (n : Int) : Option (List Node) :=
  if membership.length = 0 then some []
  else
    let m : Int := if (membership.length : Int) < n then (membership.length : Int) else n
    if m < 0 then none
    else some (((List.insertionSort specLe (scoresOf membership key)).take m.toNat).map Prod.fst)

/-- The maximum rendezvous score of a key over a membership list, as used
in claim C5 (max over y in M of hash of key and identity of y). -/
def maxScore (key : Str) (M : List Node) : Nat :=
  (M.map (fun nd => hash (key ++ nd.ID))).foldr max 0

/-- The full sorted owner list (Owners with the count equal to the
membership size), the object the ordering claims speak about. -/
def ownersFull (order : List Node) (key : Str) : List Node :=
  (List.insertionSort scoreGe (scoresOf order key)).map Prod.fst

end Ring

namespace Client

/-- Outcome of one Get RPC against a replica: a transport error, or a
reply carrying the found flag and value of the GetResponse message. -/
inductive GetResp where
  | rpcErr
  | reply (found : Bool) (value : Str)
deriving DecidableEq

/-- Errors surfaced by the coordinator Get. -/
inductive GetErr where
  | noNodes
  | allFailed
deriving DecidableEq

/-- Model of Client.getFromNodeWithRetry: a transport error is returned as
an error, and a reply with Found false is also turned into an error (the
key-not-found error), so only a found reply produces a value. -/
def getFromNodeWithRetry : GetResp → Except Unit Str
  | .rpcErr => .error ()
  | .reply found v => if found then .ok v else .error ()

/-- Model of Client.getFromNode.  Hedging only re-issues the same request
to the same replica to cut tail latency, so the outcome is the outcome of
the replica reply, as in the non-hedged path. -/
def getFromNode (r : GetResp) : Except Unit Str := getFromNodeWithRetry r

/-- The fallback loop of Client.Get over the owners after the primary. -/
def tryFallback (resp : Ring.Node → GetResp) : List Ring.Node → Except GetErr Str
  | [] => .error .allFailed
  | nd :: rest =>
    match getFromNode (resp nd) with
    | .ok v => .ok v
    | .error _ => tryFallback resp rest

/-- Model of Client.Get: with the owner list returned by the ring, try the
primary owner first and on any error (transport or not-found) fall through
the remaining owners in order; when every owner has failed return the
failed-to-get-from-any-node error. -/
def Get (owners : List Ring.Node) (resp : Ring.Node → GetResp) : Except GetErr Str :=
  match owners with
  | [] => .error .noNodes
  | primary :: rest =>
    match getFromNode (resp primary) with
    | .ok v => .ok v
    | .error _ => tryFallback resp rest

/-- Outcome of one Set RPC against a replica. -/
inductive SetResp where
  | rpcErr
  | reply (success : Bool)
deriving DecidableEq

/-- Outcome of one Delete RPC against a replica. -/
inductive DeleteResp where
  | rpcErr
  | reply (deleted : Bool)
deriving DecidableEq

/-- Errors surfaced by the coordinator Set and Delete. -/
inductive WriteErr where
  | noNodes
  | quorumFailed
deriving DecidableEq

/-- Model of Client.setToNode: transport errors and replies with Success
false are both errors. -/
def setToNode : SetResp → Except Unit Unit
  | .rpcErr => .error ()
  | .reply success => if success then .ok () else .error ()

/-- Model of Client.deleteFromNode: transport errors and replies with
Deleted false (the key did not exist on that replica) are both errors. -/
def deleteFromNode : DeleteResp → Except Unit Unit
  | .rpcErr => .error ()
  | .reply deleted => if deleted then .ok () else .error ()

def isOk : Except Unit Unit → Bool
  | .ok _ => true
  | .error _ => false

/-- Model of Client.Set: resolve owners with the write quorum as the
count, fan out, count per-replica successes, and succeed exactly when the
success count reaches the write quorum.  The outer Option propagates the
Owners panic case. -/
def SetOp (order : List Ring.Node) (key : Str) (writeQuorum : Int)
    (resp : Ring.Node → SetResp) : Option (Except WriteErr Unit) :=
  (Ring.Owners order key writeQuorum).map (fun owners =>
    if owners.length = 0 then .error .noNodes
    else if writeQuorum ≤ ((owners.countP (fun nd => isOk (setToNode (resp nd)))) : Int)
      then .ok () else .error .quorumFailed)

/-- Model of Client.Delete, identical in shape to Client.Set with the
per-replica Delete RPC. -/
def DeleteOp (order : List Ring.Node) (key : Str) (writeQuorum : Int)
    (resp : Ring.Node → DeleteResp) : Option (Except WriteErr Unit) :=
  (Ring.Owners order key writeQuorum).map (fun owners =>
    if owners.length = 0 then .error .noNodes
    else if writeQuorum ≤ ((owners.countP (fun nd => isOk (deleteFromNode (resp nd)))) : Int)
      then .ok () else .error .quorumFailed)

end Client

/-- Model of cache.Entry without its Key field (the key addresses the
record): value, absolute expiry (0 models the Go zero time, meaning no
expiry), and the two recency-list links, each link holding the key of the
neighbouring entry (pointers are modelled by keys). -/
structure Rec where
  value : Str
  expiresAt : Nat
  prev : Option Str
  next : Option Str
deriving DecidableEq

/-- Model of cache.Cache: the entries map (as an association list whose
order also models Go map iteration order in Cleanup), the head and tail
links, and the capacity and size counters (Go ints). -/
structure Cache where
  entries : List (Str × Rec)
  head : Option Str
  tail : Option Str
  capacity : Int
  size : Int
deriving DecidableEq

namespace CacheMap

/-- Lookup in the entries map. -/
def alookup : List (Str × Rec) → Str → Option Rec
  | [], _ => none
  | (k1, r) :: rest, k => if k1 = k then some r else alookup rest k

/-- Update the record stored at a key, if present (a write through a
pointer to that entry). -/
def aupdate (f : Rec → Rec) : List (Str × Rec) → Str → List (Str × Rec)
  | [], _ => []
  | (k1, r) :: rest, k => if k1 = k then (k1, f r) :: rest else (k1, r) :: aupdate f rest k

/-- Remove the binding of a key (Go delete on the map). -/
def aerase : List (Str × Rec) → Str → List (Str × Rec)
  | [], _ => []
  | (k1, r) :: rest, k => if k1 = k then rest else (k1, r) :: aerase rest k

/-- Insert or overwrite a binding (Go map assignment). -/
def aset : List (Str × Rec) → Str → Rec → List (Str × Rec)
  | [], k, r => [(k, r)]
  | (k1, r1) :: rest, k, r => if k1 = k then (k, r) :: rest else (k1, r1) :: aset rest k r

def keysOf (m : List (Str × Rec)) : List Str := m.map Prod.fst

end CacheMap

open CacheMap

/-- Model of cache.NewCache. -/
def newCache (capacity : Int) : Cache :=
  { entries := [], head := none, tail := none, capacity := capacity, size := 0 }

/-- Model of Cache.addToFront: reset the links of the entry, point it at
the old head, fix the old head back-link, install it as head, and set the
tail when the list was empty. -/
def Cache.addToFront (c : Cache) (k : Str) : Cache :=
  let c1 := { c with entries := aupdate (fun r => { r with prev := none, next := c.head }) c.entries k }
  let c2 :=
    match c1.head with
    | some h => { c1 with entries := aupdate (fun r => { r with prev := some k }) c1.entries h }
    | none => c1
  let c3 := { c2 with head := some k }
  match c3.tail with
  | none => { c3 with tail := some k }
  | some _ => c3

/-- Model of Cache.removeEntry, with the removed record passed by value as
the Go code reads the fields of the removed entry. -/
def Cache.removeEntry (c : Cache) (k : Str) (e : Rec) : Cache :=
  let c1 := { c with entries := aerase c.entries k }
  let c2 :=
    match e.prev with
    | some p => { c1 with entries := aupdate (fun r => { r with next := e.next }) c1.entries p }
    | none => { c1 with head := e.next }
  let c3 :=
    match e.next with
    | some nk => { c2 with entries := aupdate (fun r => { r with prev := e.prev }) c2.entries nk }
    | none => { c2 with tail := e.prev }
  { c3 with size := c3.size - 1 }

/-- Model of Cache.moveToFront: a no-op when the entry is already at the
head; otherwise unlink it in place, fix the tail if needed, and push it to
the front. -/
def Cache.moveToFront (c : Cache) (k : Str) (e : Rec) : Cache :=
  if c.head = some k then c
  else
    let c1 :=
      match e.prev with
      | some p => { c with entries := aupdate (fun r => { r with next := e.next }) c.entries p }
      | none => c
    let c2 :=
      match e.next with
      | some nk => { c1 with entries := aupdate (fun r => { r with prev := e.prev }) c1.entries nk }
      | none => c1
    let c3 := if c2.tail = some k then { c2 with tail := e.prev } else c2
    Cache.addToFront c3 k

/-- Model of Cache.evictLRU: remove the tail entry when there is one. -/
def Cache.evictLRU (c : Cache) : Cache :=
  match c.tail with
  | none => c
  | some tk =>
    match alookup c.entries tk with
    | some e => Cache.removeEntry c tk e
    | none => c

/-- Model of Cache.Get: miss when absent; when present but expired
(expiry set and strictly in the past) remove the entry and miss; otherwise
move the entry to the front and return the stored value. -/
def Cache.Get (c : Cache) (k : Str) (now : Nat) : Option Str × Bool × Cache :=
  match alookup c.entries k with
  | none => (none, false, c)
  | some e =>
    if e.expiresAt ≠ 0 ∧ e.expiresAt < now then
      (none, false, Cache.removeEntry c k e)
    else
      (some e.value, true, Cache.moveToFront c k e)

/-- Model of Cache.Set: overwrite and move to front when the key exists;
otherwise insert a fresh entry at the front, grow the size, and evict the
tail when the size exceeds the capacity.  A positive ttl sets the absolute
expiry to now plus ttl; other ttl values leave the entry without expiry. -/
def Cache.Set (c : Cache) (k : Str) (v : Str) (ttl : Int) (now : Nat) : Cache :=
  match alookup c.entries k with
  | some _ =>
    let newExp := if 0 < ttl then now + ttl.toNat else 0
    let c1 := { c with entries := aupdate (fun r => { r with value := v, expiresAt := newExp }) c.entries k }
    match alookup c1.entries k with
    | some e1 => Cache.moveToFront c1 k e1
    | none => c1
  | none =>
    let newExp := if 0 < ttl then now + ttl.toNat else 0
    let c1 := { c with entries := aset c.entries k { value := v, expiresAt := newExp, prev := none, next := none } }
    let c2 := Cache.addToFront c1 k
    let c3 := { c2 with size := c2.size + 1 }
    if c3.capacity < c3.size then Cache.evictLRU c3 else c3

/-- Model of Cache.Delete: false when absent, otherwise remove and true. -/
def Cache.Delete (c : Cache) (k : Str) : Bool × Cache :=
  match alookup c.entries k with
  | none => (false, c)
  | some e => (true, Cache.removeEntry c k e)

/-- Model of Cache.Clear. -/
def Cache.Clear (c : Cache) : Cache :=
  { entries := [], head := none, tail := none, capacity := c.capacity, size := 0 }

/-- The iteration of Cache.Cleanup over the keys present when it starts
(map iteration order modelled by the entries list order); each visited
entry is re-read so that link updates from earlier removals are seen. -/
def Cache.cleanupGo (now : Nat) : List Str → Cache → Nat → Nat × Cache
  | [], c, acc => (acc, c)
  | k :: ks, c, acc =>
    match alookup c.entries k with
    | none => Cache.cleanupGo now ks c acc
    | some e =>
      if e.expiresAt ≠ 0 ∧ e.expiresAt < now then
        Cache.cleanupGo now ks (Cache.removeEntry c k e) (acc + 1)
      else
        Cache.cleanupGo now ks c acc

/-- Model of Cache.Cleanup: remove every expired entry and count them. -/
def Cache.Cleanup (c : Cache) (now : Nat) : Nat × Cache :=
  Cache.cleanupGo now (keysOf c.entries) c 0

/-- One public cache operation, with its clock where the code reads one. -/
inductive Op where
  | get (k : Str) (now : Nat)
  | set (k v : Str) (ttl : Int) (now : Nat)
  | del (k : Str)
  | cleanup (now : Nat)
  | clear

def applyOp (c : Cache) : Op → Cache
  | .get k now => (Cache.Get c k now).2.2
  | .set k v ttl now => Cache.Set c k v ttl now
  | .del k => (Cache.Delete c k).2
  | .cleanup now => (Cache.Cleanup c now).2
  | .clear => Cache.Clear c

def runOps (c : Cache) (ops : List Op) : Cache := ops.foldl applyOp c

/-- A sequence of Set operations with no expiry, as in claim C8. -/
def runSets (c : Cache) (ps : List (Str × Str)) : Cache :=
  ps.foldl (fun c1 p => Cache.Set c1 p.1 p.2 0 0) c

/-- Walk a recency-list link from a starting pointer, bounded by fuel. -/
def walkBy (m : List (Str × Rec)) (f : Rec → Option Str) : Nat → Option Str → List Str
  | 0, _ => []
  | _ + 1, none => []
  | fuel + 1, some k =>
    match alookup m k with
    | none => []
    | some r => k :: walkBy m f fuel (f r)

/-- The entries reachable from head via Next. -/
def reachHead (c : Cache) : List Str := walkBy c.entries Rec.next c.entries.length c.head

/-- The entries reachable from tail via Prev. -/
def reachTail (c : Cache) : List Str := walkBy c.entries Rec.prev c.entries.length c.tail

/-- A doubly-linked-list segment: chain m pk L nk holds when the keys in L
are all bound in m, consecutive records point at each other, the first
record points back at pk, and the last record points forward at nk. -/
def junction (rest : List Str) (nk : Option Str) : Option Str :=
  match rest with
  | [] => nk
  | k2 :: _ => some k2

/-- The key pointing back into a segment from its right end: the last key
of the segment, or the given left neighbour when the segment is empty. -/
def backJunction (pk : Option Str) (L : List Str) : Option Str :=
  match L.getLast? with
  | none => pk
  | some j => some j

def chain (m : List (Str × Rec)) : Option Str → List Str → Option Str → Prop
  | _, [], _ => True
  | pk, k :: rest, nk =>
    match alookup m k with
    | none => False
    | some r =>
      r.prev = pk ∧ r.next = junction rest nk ∧ chain m (some k) rest nk

instance chainDecidable (m : List (Str × Rec)) :
    (pk : Option Str) → (L : List Str) → (nk : Option Str) → Decidable (chain m pk L nk)
  | _, [], _ => .isTrue trivial
  | pk, k :: rest, nk =>
    match h : alookup m k with
    | none => .isFalse (by simp only [chain, h]; exact id)
    | some r =>
      have : Decidable (chain m (some k) rest nk) := chainDecidable m (some k) rest nk
      decidable_of_iff
        (r.prev = pk ∧ r.next = junction rest nk ∧ chain m (some k) rest nk)
        (by simp only [chain, h])

/-- The cache well-formedness invariant, relative to the recency order L
(head first): the links form one doubly-linked list over exactly the keys
of the entries map, head and tail point at its ends, the keys are
pairwise distinct, the size counter equals its length, and the size is
bounded by the capacity. -/
structure CacheInv (c : Cache) (L : List Str) : Prop where
  chain_ok : chain c.entries none L none
  head_ok : c.head = L.head?
  tail_ok : c.tail = L.getLast?
  keys_perm : List.Perm (keysOf c.entries) L
  nodup : L.Nodup
  size_ok : c.size = (L.length : Int)
  cap_ok : c.size ≤ c.capacity

instance (c : Cache) (L : List Str) : Decidable (CacheInv c L) :=
  decidable_of_iff
    (chain c.entries none L none ∧ c.head = L.head? ∧ c.tail = L.getLast? ∧
      List.Perm (keysOf c.entries) L ∧ L.Nodup ∧ c.size = (L.length : Int) ∧ c.size ≤ c.capacity)
    ⟨fun ⟨h1, h2, h3, h4, h5, h6, h7⟩ => ⟨h1, h2, h3, h4, h5, h6, h7⟩,
     fun ⟨h1, h2, h3, h4, h5, h6, h7⟩ => ⟨h1, h2, h3, h4, h5, h6, h7⟩⟩

/-- A cache state is well formed when some recency order witnesses Inv. -/
def CacheOk (c : Cache) : Prop := ∃ L, CacheInv c L

/-- The two 128-byte messages of the classic MD5 collision; used as node
identities to exhibit a rendezvous score tie. -/
def collA : Str :=
  [209, 49, 221, 2, 197, 230, 238, 196, 105, 61, 154, 6, 152, 175, 249,
   92, 47, 202, 181, 135, 18, 70, 126, 171, 64, 4, 88, 62, 184, 251, 127,
   137, 85, 173, 52, 6, 9, 244, 179, 2, 131, 228, 136, 131, 37, 113, 65,
   90, 8, 81, 37, 232, 247, 205, 201, 159, 217, 29, 189, 242, 128, 55,
   60, 91, 216, 130, 62, 49, 86, 52, 143, 91, 174, 109, 172, 212, 54,
   201, 25, 198, 221, 83, 226, 180, 135, 218, 3, 253, 2, 57, 99, 6, 210,
   72, 205, 160, 233, 159, 51, 66, 15, 87, 126, 232, 206, 84, 182, 112,
   128, 168, 13, 30, 198, 152, 33, 188, 182, 168, 131, 147, 150, 249,
   101, 43, 111, 247, 42, 112]

def collB : Str :=
  [209, 49, 221, 2, 197, 230, 238, 196, 105, 61, 154, 6, 152, 175, 249,
   92, 47, 202, 181, 7, 18, 70, 126, 171, 64, 4, 88, 62, 184, 251, 127,
   137, 85, 173, 52, 6, 9, 244, 179, 2, 131, 228, 136, 131, 37, 241, 65,
   90, 8, 81, 37, 232, 247, 205, 201, 159, 217, 29, 189, 114, 128, 55,
   60, 91, 216, 130, 62, 49, 86, 52, 143, 91, 174, 109, 172, 212, 54,
   201, 25, 198, 221, 83, 226, 52, 135, 218, 3, 253, 2, 57, 99, 6, 210,
   72, 205, 160, 233, 159, 51, 66, 15, 87, 126, 232, 206, 84, 182, 112,
   128, 40, 13, 30, 198, 152, 33, 188, 182, 168, 131, 147, 150, 249, 101,
   171, 111, 247, 42, 112]

/-- Node whose identity is the first collision message. -/
def nodeCollA : Ring.Node := { ID := collA, Addr := strBytes "addr-a" }

/-- Node whose identity is the second collision message. -/
def nodeCollB : Ring.Node := { ID := collB, Addr := strBytes "addr-b" }

/-- Small concrete nodes used in witnesses. -/
def rNode1 : Ring.Node := { ID := strBytes "node1", Addr := strBytes "localhost:8081" }

def rNode2 : Ring.Node := { ID := strBytes "node2", Addr := strBytes "localhost:8082" }

def rNode3 : Ring.Node := { ID := strBytes "node3", Addr := strBytes "localhost:8083" }

/-- A concrete response table for the C1 counterexample: the primary
answers a definitive not-found, the second owner holds the value. -/
def cRespA : Ring.Node → Client.GetResp :=
  fun nd => if nd = rNode1 then .reply false [] else .reply true (strBytes "v2")

/-- Every replica reports that the deleted key did not exist. -/
def dRespAbsent : Ring.Node → Client.DeleteResp := fun _ => .reply false

/-- Every Set RPC succeeds. -/
def sRespOk : Ring.Node → Client.SetResp := fun _ => .reply true

/-- Every Delete RPC succeeds. -/
def dRespOk : Ring.Node → Client.DeleteResp := fun _ => .reply true

/- Theorems. -/

/-- Validation of the MD5 model against the RFC 1321 test suite: the
digest of the empty message. -/
theorem md5_rfc_empty :
    MD5.md5 [] =
      [0xd4, 0x1d, 0x8c, 0xd9, 0x8f, 0x00, 0xb2, 0x04,
       0xe9, 0x80, 0x09, 0x98, 0xec, 0xf8, 0x42, 0x7e] := by decide

/-- Validation of the MD5 model against the RFC 1321 test suite: the
digest of the three-byte message abc. -/
theorem md5_rfc_abc :
    MD5.md5 (strBytes "abc") =
      [0x90, 0x01, 0x50, 0x98, 0x3c, 0xd2, 0x4f, 0xb0,
       0xd6, 0x96, 0x3f, 0x7d, 0x28, 0xe1, 0x7f, 0x72] := by decide

set_option maxRecDepth 100000 in
/-- The two collision messages are distinct byte strings with equal MD5
digests, hence equal ring hashes. -/
theorem md5_collision_pair :
    MD5.md5 collA = MD5.md5 collB ∧ collA ≠ collB := by decide

/-- Ring.Owners always returns a value for a nonnegative count, and the
value is the score-sorted list truncated to min(count, membership size). -/
theorem owners_formula (order : List Ring.Node) (key : Str) {n : Int} (hn : 0 ≤ n) :
    Ring.Owners order key n =
      some (((List.insertionSort Ring.scoreGe (Ring.scoresOf order key)).take
        (min n.toNat order.length)).map Prod.fst) := by
  unfold Ring.Owners
  by_cases h0 : order.length = 0
  · have : order = [] := List.length_eq_zero.mp h0
    subst this
    simp [Ring.scoresOf]
  · have hne : (0 : Int) ≤ (order.length : Int) := Int.ofNat_nonneg _
    have htn : ((n.toNat : Int)) = n := Int.toNat_of_nonneg hn
    by_cases hlt : (order.length : Int) < n
    · have h1 : ¬ ((order.length : Int) < 0) := by omega
      have h2 : min n.toNat order.length = order.length := by omega
      simp only [h0, if_false, hlt, if_true, h1, Int.toNat_ofNat, h2]
    · have h1 : ¬ (n < 0) := by omega
      have h2 : min n.toNat order.length = n.toNat := by omega
      simp only [h0, if_false, hlt, if_false, h1, h2]

/-- Claim C10: with a nonempty membership and a negative requested owner
count, Ring.Owners does not return a value: the count is not clamped from
below, so the result construction is a make with a negative length, which
panics. -/
theorem owners_negative_count_panics
    (order : List Ring.Node) (key : Str) (n : Int)
    (hne : order ≠ []) (hn : n < 0) :
    Ring.Owners order key n = none := by
  unfold Ring.Owners
  have hlen : ¬ (order.length = 0) := by
    simpa [List.length_eq_zero] using hne
  have h1 : ¬ ((order.length : Int) < n) := by
    have : (0 : Int) ≤ (order.length : Int) := Int.ofNat_nonneg _
    omega
  simp only [hlen, if_false, h1, hn, if_true]

/-- Witness for claim C10 at a concrete input. -/
theorem owners_negative_count_panics_witness :
    (([rNode1] : List Ring.Node) ≠ [] ∧ (-1 : Int) < 0) ∧
      Ring.Owners [rNode1] (strBytes "test-key") (-1) = none :=
  ⟨⟨by decide, by decide⟩,
    owners_negative_count_panics [rNode1] (strBytes "test-key") (-1) (by decide) (by decide)⟩

set_option maxRecDepth 100000 in
/-- Claim C3 counterexample: the two collision-message identities tie on
score for the empty key.  The identity of nodeCollB is lexicographically
smaller, so the claimed tie-break demands the order [nodeCollB, nodeCollA];
but with the membership iterated as [nodeCollA, nodeCollB] the code keeps
the tied pair in encounter order and returns [nodeCollA, nodeCollB].  The
specification-following specOwners returns the lexicographic order. -/
theorem owners_tiebreak_counterexample :
    Ring.hash ([] ++ nodeCollA.ID) = Ring.hash ([] ++ nodeCollB.ID) ∧
    nodeCollB.ID < nodeCollA.ID ∧
    Ring.Owners [nodeCollA, nodeCollB] [] 2 = some [nodeCollA, nodeCollB] ∧
    Ring.specOwners [nodeCollA, nodeCollB] [] 2 = some [nodeCollB, nodeCollA] := by
  decide

set_option maxRecDepth 100000 in
/-- Claim C4 counterexample: the same membership (one Perm of the other,
as produced by two iterations of the same Go map) with the same key and
count yields two different owner lists, so Owners is not deterministic in
the presence of score ties. -/
theorem owners_determinism_counterexample :
    List.Perm [nodeCollA, nodeCollB] [nodeCollB, nodeCollA] ∧
    Ring.Owners [nodeCollA, nodeCollB] [] 2 ≠ Ring.Owners [nodeCollB, nodeCollA] [] 2 := by
  decide

set_option maxRecDepth 100000 in
/-- Claim C5 counterexample: adding nodeCollA to the membership consisting
of nodeCollB changes the primary owner of the empty key (for the iteration
order [nodeCollA, nodeCollB]) even though the score of nodeCollA is not
strictly greater than the maximum score over the old membership, so the
claimed primary-change characterization fails on a tie. -/
theorem addnode_primary_change_counterexample :
    Ring.Owners [nodeCollB] [] 1 = some [nodeCollB] ∧
    Ring.Owners [nodeCollA, nodeCollB] [] 1 = some [nodeCollA] ∧
    ¬ (Ring.maxScore [] [nodeCollB] < Ring.hash ([] ++ nodeCollA.ID)) ∧
    nodeCollA ≠ nodeCollB := by
  decide

/-- Claim C1 counterexample: with owners [rNode1, rNode2], key responses
in cRespA, the primary rNode1 answers a definitive not-found, yet the
coordinator falls through and returns the value held by rNode2; and when a
definitive not-found is the only answer, the call surfaces an error rather
than a non-error found=false result. -/
theorem client_get_notfound_counterexample :
    cRespA rNode1 = Client.GetResp.reply false [] ∧
    Client.Get [rNode1, rNode2] cRespA = Except.ok (strBytes "v2") ∧
    Client.Get [rNode1] cRespA = Except.error Client.GetErr.allFailed := by
  decide

/-- Claim C1 amended: a per-replica definitive not-found is converted into
an error by getFromNodeWithRetry, so the coordinator does not short
circuit: it behaves exactly as if the call continued with the remaining
owners, and when the owner list is exhausted the call fails with an error
instead of returning a found=false result. -/
theorem client_get_notfound_falls_through
    (nd : Ring.Node) (rest : List Ring.Node) (resp : Ring.Node → Client.GetResp) (w : Str)
    (hnf : resp nd = .reply false w) :
    (rest ≠ [] → Client.Get (nd :: rest) resp = Client.Get rest resp) ∧
    Client.Get [nd] resp = Except.error Client.GetErr.allFailed := by
  have hfail : Client.getFromNode (resp nd) = Except.error () := by
    simp [Client.getFromNode, Client.getFromNodeWithRetry, hnf]
  constructor
  · intro hrest
    cases rest with
    | nil => exact absurd rfl hrest
    | cons m r2 =>
      simp only [Client.Get, hfail]
      cases hm : Client.getFromNode (resp m) with
      | ok v => simp [Client.tryFallback, hm]
      | error e => simp [Client.tryFallback, hm]
  · simp [Client.Get, hfail, Client.tryFallback]

/-- Witness for the amended claim C1 at a concrete input. -/
theorem client_get_notfound_falls_through_witness :
    cRespA rNode1 = Client.GetResp.reply false [] ∧
    (([rNode2] : List Ring.Node) ≠ [] → Client.Get [rNode1, rNode2] cRespA = Client.Get [rNode2] cRespA) ∧
    Client.Get [rNode1] cRespA = Except.error Client.GetErr.allFailed :=
  ⟨by decide,
   (client_get_notfound_falls_through rNode1 [rNode2] cRespA [] (by decide)).1,
   (client_get_notfound_falls_through rNode1 [rNode2] cRespA [] (by decide)).2⟩

set_option maxRecDepth 100000 in
/-- Claim C2 counterexample: both reachable replicas report that the key
did not exist (Deleted false); with write quorum 2 the coordinator counts
zero successes and returns the quorum failure error instead of success, so
an absent-key delete is not idempotent at the coordinator. -/
theorem client_delete_absent_counterexample :
    Client.DeleteOp [rNode1, rNode2] (strBytes "k") 2 dRespAbsent =
      some (Except.error Client.WriteErr.quorumFailed) ∧
    Client.DeleteOp [rNode1, rNode2] (strBytes "k") 2 dRespAbsent ≠
      some (Except.ok ()) := by
  decide

/-- Claim C2 amended: a replica that reports the key did not exist counts
as a failure toward the write quorum (deleteFromNode surfaces Deleted
false as an error), so a DELETE whose replicas all report did-not-exist
returns a quorum failure whenever the write quorum is at least one. -/
theorem client_delete_absent_quorum_failure
    (order : List Ring.Node) (key : Str) (wq : Int)
    (resp : Ring.Node → Client.DeleteResp)
    (hne : order ≠ []) (hwq : 1 ≤ wq)
    (habsent : ∀ nd, resp nd = .reply false) :
    Client.DeleteOp order key wq resp = some (Except.error Client.WriteErr.quorumFailed) := by
  have hn0 : (0 : Int) ≤ wq := by omega
  have hform := owners_formula order key hn0
  unfold Client.DeleteOp
  rw [hform]
  have hlenpos : 0 < order.length := List.length_pos.mpr hne
  have hcount : ∀ (l : List Ring.Node),
      l.countP (fun nd => Client.isOk (Client.deleteFromNode (resp nd))) = 0 := by
    intro l
    apply List.countP_eq_zero.mpr
    intro nd _
    simp [habsent nd, Client.deleteFromNode, Client.isOk]
  have hlen : (((List.insertionSort Ring.scoreGe (Ring.scoresOf order key)).take
      (min wq.toNat order.length)).map Prod.fst).length = min wq.toNat order.length := by
    rw [List.length_map, List.length_take, List.length_insertionSort]
    have : (Ring.scoresOf order key).length = order.length := List.length_map _ _
    omega
  have hmin : min wq.toNat order.length ≠ 0 := by
    have : (wq.toNat : Int) = wq := Int.toNat_of_nonneg hn0
    omega
  simp only [Option.map_some']
  rw [hlen.symm] at hmin
  rw [if_neg hmin, hcount]
  have hq : ¬ (wq ≤ ((0 : Nat) : Int)) := by
    simp only [Nat.cast_zero]
    omega
  rw [if_neg hq]

set_option maxRecDepth 100000 in
/-- Witness for the amended claim C2 at a concrete input. -/
theorem client_delete_absent_quorum_failure_witness :
    ((([rNode1, rNode2] : List Ring.Node) ≠ []) ∧ (1 : Int) ≤ 2 ∧
        (∀ nd, dRespAbsent nd = Client.DeleteResp.reply false)) ∧
      Client.DeleteOp [rNode1, rNode2] (strBytes "k2") 2 dRespAbsent =
        some (Except.error Client.WriteErr.quorumFailed) :=
  ⟨⟨by decide, by decide, fun _ => rfl⟩,
    client_delete_absent_quorum_failure [rNode1, rNode2] (strBytes "k2") 2 dRespAbsent
      (by decide) (by decide) (fun _ => rfl)⟩

/-- Claim C9: when the ring has a positive node count strictly below the
configured write quorum, the owner list is clamped to the node count, at
most that many successes can be collected, and both Set and Delete return
the quorum failure error regardless of the per-replica outcomes. -/
theorem quorum_unreachable_with_few_nodes
    (order : List Ring.Node) (keyS keyD : Str) (wq : Int)
    (respS : Ring.Node → Client.SetResp) (respD : Ring.Node → Client.DeleteResp)
    (hpos : order ≠ []) (hlt : (order.length : Int) < wq) :
    Client.SetOp order keyS wq respS = some (Except.error Client.WriteErr.quorumFailed) ∧
    Client.DeleteOp order keyD wq respD = some (Except.error Client.WriteErr.quorumFailed) := by
  have hlenpos : 0 < order.length := List.length_pos.mpr hpos
  have hn0 : (0 : Int) ≤ wq := by omega
  have htn : ((wq.toNat : Int)) = wq := Int.toNat_of_nonneg hn0
  constructor
  · unfold Client.SetOp
    rw [owners_formula order keyS hn0]
    simp only [Option.map_some']
    have hlen : (((List.insertionSort Ring.scoreGe (Ring.scoresOf order keyS)).take
        (min wq.toNat order.length)).map Prod.fst).length = order.length := by
      rw [List.length_map, List.length_take, List.length_insertionSort]
      have h2 : (Ring.scoresOf order keyS).length = order.length := List.length_map _ _
      omega
    rw [if_neg (by omega)]
    have hcle := List.countP_le_length
      (p := fun nd => Client.isOk (Client.setToNode (respS nd)))
      (l := ((List.insertionSort Ring.scoreGe (Ring.scoresOf order keyS)).take
        (min wq.toNat order.length)).map Prod.fst)
    rw [if_neg (by omega)]
  · unfold Client.DeleteOp
    rw [owners_formula order keyD hn0]
    simp only [Option.map_some']
    have hlen : (((List.insertionSort Ring.scoreGe (Ring.scoresOf order keyD)).take
        (min wq.toNat order.length)).map Prod.fst).length = order.length := by
      rw [List.length_map, List.length_take, List.length_insertionSort]
      have h2 : (Ring.scoresOf order keyD).length = order.length := List.length_map _ _
      omega
    rw [if_neg (by omega)]
    have hcle := List.countP_le_length
      (p := fun nd => Client.isOk (Client.deleteFromNode (respD nd)))
      (l := ((List.insertionSort Ring.scoreGe (Ring.scoresOf order keyD)).take
        (min wq.toNat order.length)).map Prod.fst)
    rw [if_neg (by omega)]

set_option maxRecDepth 100000 in
/-- Witness for claim C9 at a concrete input: one node, write quorum 3,
every RPC succeeding. -/
theorem quorum_unreachable_with_few_nodes_witness :
    ((([rNode1] : List Ring.Node) ≠ []) ∧ (([rNode1] : List Ring.Node).length : Int) < 3) ∧
      Client.SetOp [rNode1] (strBytes "ka") 3 sRespOk = some (Except.error Client.WriteErr.quorumFailed) ∧
      Client.DeleteOp [rNode1] (strBytes "kb") 3 dRespOk = some (Except.error Client.WriteErr.quorumFailed) :=
  ⟨⟨by decide, by decide⟩,
    quorum_unreachable_with_few_nodes [rNode1] (strBytes "ka") (strBytes "kb") 3 sRespOk dRespOk
      (by decide) (by decide)⟩

/-- Every pair in a scored list carries the score of its node. -/
theorem scoresOf_mem_snd {order : List Ring.Node} {key : Str} {p : Ring.Node × Nat}
    (hp : p ∈ Ring.scoresOf order key) : p.2 = Ring.scoreOf key p.1 := by
  rcases List.mem_map.mp hp with ⟨nd, _, rfl⟩
  rfl

/-- Projecting the scored list back to nodes recovers the input order. -/
theorem scoresOf_map_fst (order : List Ring.Node) (key : Str) :
    (Ring.scoresOf order key).map Prod.fst = order := by
  unfold Ring.scoresOf
  rw [List.map_map]
  exact List.map_id order

/-- The scores of the scored list are the node scores. -/
theorem scoresOf_map_snd (order : List Ring.Node) (key : Str) :
    (Ring.scoresOf order key).map Prod.snd = order.map (Ring.scoreOf key) := by
  simp [Ring.scoresOf, List.map_map]
  exact fun a _ => rfl

/-- A list sorted by the non-strict score order whose scores are pairwise
distinct is sorted by the strict score order. -/
theorem sorted_scoreGt_of_nodup {l : List (Ring.Node × Nat)}
    (hs : List.Sorted Ring.scoreGe l) (hnd : (l.map Prod.snd).Nodup) :
    List.Sorted Ring.scoreGt l := by
  have hne : l.Pairwise (fun a b => a.2 ≠ b.2) := List.pairwise_map.mp hnd
  exact (hs.and hne).imp (fun h => lt_of_le_of_ne h.1 (fun heq => h.2 heq.symm))

/-- With pairwise-distinct scores, the score-descending sorted order of a
scored list is independent of the input order. -/
theorem insertionSort_scoreGe_eq_of_perm {l1 l2 : List (Ring.Node × Nat)}
    (hp : List.Perm l1 l2) (hnd : (l1.map Prod.snd).Nodup) :
    List.insertionSort Ring.scoreGe l1 = List.insertionSort Ring.scoreGe l2 := by
  have hs1 := List.sorted_insertionSort Ring.scoreGe l1
  have hs2 := List.sorted_insertionSort Ring.scoreGe l2
  have hp1 : List.Perm (List.insertionSort Ring.scoreGe l1) l1 := List.perm_insertionSort _ _
  have hp2 : List.Perm (List.insertionSort Ring.scoreGe l2) l2 := List.perm_insertionSort _ _
  have hperm : List.Perm (List.insertionSort Ring.scoreGe l1) (List.insertionSort Ring.scoreGe l2) :=
    hp1.trans (hp.trans hp2.symm)
  have hnd1 : ((List.insertionSort Ring.scoreGe l1).map Prod.snd).Nodup :=
    ((hp1.map Prod.snd).nodup_iff).mpr hnd
  have hnd2 : ((List.insertionSort Ring.scoreGe l2).map Prod.snd).Nodup :=
    ((hperm.map Prod.snd).nodup_iff).mp hnd1
  exact List.eq_of_perm_of_sorted hperm
    (sorted_scoreGt_of_nodup hs1 hnd1) (sorted_scoreGt_of_nodup hs2 hnd2)

/-- With pairwise-distinct scores, the lexicographic tie-break of the
specification never fires, so the specification sort coincides with the
score-only sort. -/
theorem insertionSort_specLe_eq_scoreGe {l : List (Ring.Node × Nat)}
    (hnd : (l.map Prod.snd).Nodup) :
    List.insertionSort Ring.specLe l = List.insertionSort Ring.scoreGe l := by
  have hsSpec := List.sorted_insertionSort Ring.specLe l
  have hsGe := List.sorted_insertionSort Ring.scoreGe l
  have hpS : List.Perm (List.insertionSort Ring.specLe l) l := List.perm_insertionSort _ _
  have hpG : List.Perm (List.insertionSort Ring.scoreGe l) l := List.perm_insertionSort _ _
  have hperm : List.Perm (List.insertionSort Ring.specLe l) (List.insertionSort Ring.scoreGe l) :=
    hpS.trans hpG.symm
  have hsSpecGe : List.Sorted Ring.scoreGe (List.insertionSort Ring.specLe l) := by
    refine hsSpec.imp (fun h => ?_)
    rcases h with h | ⟨h, _⟩
    · exact le_of_lt h
    · exact le_of_eq h.symm
  have hndS : ((List.insertionSort Ring.specLe l).map Prod.snd).Nodup :=
    ((hpS.map Prod.snd).nodup_iff).mpr hnd
  have hndG : ((List.insertionSort Ring.scoreGe l).map Prod.snd).Nodup :=
    ((hpG.map Prod.snd).nodup_iff).mpr hnd
  exact List.eq_of_perm_of_sorted hperm
    (sorted_scoreGt_of_nodup hsSpecGe hndS) (sorted_scoreGt_of_nodup hsGe hndG)

/-- The specification-following specOwners in closed form for a
nonnegative count. -/
theorem specOwners_formula (membership : List Ring.Node) (key : Str) {n : Int} (hn : 0 ≤ n) :
    Ring.specOwners membership key n =
      some (((List.insertionSort Ring.specLe (Ring.scoresOf membership key)).take
        (min n.toNat membership.length)).map Prod.fst) := by
  unfold Ring.specOwners
  by_cases h0 : membership.length = 0
  · have : membership = [] := List.length_eq_zero.mp h0
    subst this
    simp [Ring.scoresOf]
  · have hne : (0 : Int) ≤ (membership.length : Int) := Int.ofNat_nonneg _
    have htn : ((n.toNat : Int)) = n := Int.toNat_of_nonneg hn
    by_cases hlt : (membership.length : Int) < n
    · have h1 : ¬ ((membership.length : Int) < 0) := by omega
      have h2 : min n.toNat membership.length = membership.length := by omega
      simp only [h0, if_false, hlt, if_true, h1, Int.toNat_ofNat, h2]
    · have h1 : ¬ (n < 0) := by omega
      have h2 : min n.toNat membership.length = n.toNat := by omega
      simp only [h0, if_false, hlt, if_false, h1, h2]

/-- Claim C3 amended: Owners scores nodes by the big-endian 64-bit read of
the first 8 bytes of MD5(key and node id), sorts by score descending and
returns the first min(n, membership size) nodes; but ties are left to the
unstable sort over the unspecified map iteration order rather than broken
by lexicographic node identity.  When the scores for the key are pairwise
distinct (so no tie exists), the result matches the specification-following
specOwners for every iteration order. -/
theorem owners_matches_spec_without_ties
    (M order : List Ring.Node) (key : Str) (n : Int)
    (hperm : List.Perm order M)
    (hscores : (M.map (Ring.scoreOf key)).Nodup)
    (hn : 0 ≤ n) :
    Ring.Owners order key n = Ring.specOwners M key n := by
  rw [owners_formula order key hn, specOwners_formula M key hn]
  have hndM : ((Ring.scoresOf M key).map Prod.snd).Nodup := by
    rw [scoresOf_map_snd]
    exact hscores
  have hpsc : List.Perm (Ring.scoresOf order key) (Ring.scoresOf M key) := hperm.map _
  have hndO : ((Ring.scoresOf order key).map Prod.snd).Nodup :=
    ((hpsc.map Prod.snd).nodup_iff).mpr hndM
  rw [insertionSort_scoreGe_eq_of_perm hpsc hndO, insertionSort_specLe_eq_scoreGe hndM,
    hperm.length_eq]

set_option maxRecDepth 100000 in
/-- Witness for the amended claim C3 at a concrete input. -/
theorem owners_matches_spec_without_ties_witness :
    (List.Perm [rNode2, rNode1, rNode3] [rNode1, rNode2, rNode3] ∧
        (([rNode1, rNode2, rNode3].map (Ring.scoreOf (strBytes "test-key"))).Nodup) ∧
        (0 : Int) ≤ 2) ∧
      Ring.Owners [rNode2, rNode1, rNode3] (strBytes "test-key") 2 =
        Ring.specOwners [rNode1, rNode2, rNode3] (strBytes "test-key") 2 :=
  ⟨⟨by decide, by decide, by decide⟩,
    owners_matches_spec_without_ties [rNode1, rNode2, rNode3] [rNode2, rNode1, rNode3]
      (strBytes "test-key") 2 (by decide) (by decide) (by decide)⟩

/-- Claim C4 amended: for every membership (iterated in any order), key and
nonnegative n, Owners returns pairwise-distinct nodes and exactly
min(n, membership size) of them; the result is additionally independent of
the iteration order (deterministic) whenever the scores for the key are
pairwise distinct, while on a score tie it may differ between calls. -/
theorem owners_distinct_length_deterministic
    (M order : List Ring.Node) (key : Str) (n : Int)
    (hperm : List.Perm order M) (hids : (M.map Ring.Node.ID).Nodup) (hn : 0 ≤ n) :
    ∃ res, Ring.Owners order key n = some res ∧ res.Nodup ∧
      (res.length : Int) = min n (M.length : Int) ∧
      ((M.map (Ring.scoreOf key)).Nodup → Ring.Owners order key n = Ring.Owners M key n) := by
  refine ⟨_, owners_formula order key hn, ?_, ?_, ?_⟩
  · have hMnd : M.Nodup := List.Nodup.of_map _ hids
    have hond : order.Nodup := hperm.nodup_iff.mpr hMnd
    have hfst : ((List.insertionSort Ring.scoreGe (Ring.scoresOf order key)).map Prod.fst).Nodup := by
      have hp : List.Perm
          ((List.insertionSort Ring.scoreGe (Ring.scoresOf order key)).map Prod.fst)
          ((Ring.scoresOf order key).map Prod.fst) := (List.perm_insertionSort _ _).map _
      rw [scoresOf_map_fst] at hp
      exact hp.nodup_iff.mpr hond
    rw [List.map_take]
    exact List.Nodup.sublist (List.take_sublist _ _) hfst
  · rw [List.length_map, List.length_take, List.length_insertionSort]
    have hlensc : (Ring.scoresOf order key).length = order.length := List.length_map _ _
    have hlen : order.length = M.length := hperm.length_eq
    have htn : ((n.toNat : Int)) = n := Int.toNat_of_nonneg hn
    omega
  · intro hsc
    rw [owners_formula order key hn, owners_formula M key hn]
    have hndM : ((Ring.scoresOf M key).map Prod.snd).Nodup := by
      rw [scoresOf_map_snd]
      exact hsc
    have hpsc : List.Perm (Ring.scoresOf order key) (Ring.scoresOf M key) := hperm.map _
    have hndO : ((Ring.scoresOf order key).map Prod.snd).Nodup :=
      ((hpsc.map Prod.snd).nodup_iff).mpr hndM
    rw [insertionSort_scoreGe_eq_of_perm hpsc hndO, hperm.length_eq]

set_option maxRecDepth 100000 in
/-- Witness for the amended claim C4 at a concrete input, with n larger
than the membership so the clamp to the membership size shows. -/
theorem owners_distinct_length_deterministic_witness :
    (List.Perm [rNode3, rNode2, rNode1] [rNode1, rNode2, rNode3] ∧
        ([rNode1, rNode2, rNode3].map Ring.Node.ID).Nodup ∧ (0 : Int) ≤ 5) ∧
      ∃ res, Ring.Owners [rNode3, rNode2, rNode1] (strBytes "wkey") 5 = some res ∧ res.Nodup ∧
        (res.length : Int) = min 5 (([rNode1, rNode2, rNode3] : List Ring.Node).length : Int) ∧
        (([rNode1, rNode2, rNode3].map (Ring.scoreOf (strBytes "wkey"))).Nodup →
          Ring.Owners [rNode3, rNode2, rNode1] (strBytes "wkey") 5 =
            Ring.Owners [rNode1, rNode2, rNode3] (strBytes "wkey") 5) :=
  ⟨⟨by decide, by decide, by decide⟩,
    owners_distinct_length_deterministic [rNode1, rNode2, rNode3] [rNode3, rNode2, rNode1]
      (strBytes "wkey") 5 (by decide) (by decide) (by decide)⟩

/-- The full owner list is a Perm of the iteration order. -/
theorem ownersFull_perm (order : List Ring.Node) (key : Str) :
    List.Perm (Ring.ownersFull order key) order := by
  have hp : List.Perm
      ((List.insertionSort Ring.scoreGe (Ring.scoresOf order key)).map Prod.fst)
      ((Ring.scoresOf order key).map Prod.fst) := (List.perm_insertionSort _ _).map _
  rw [scoresOf_map_fst] at hp
  exact hp

/-- Owners applied to the full membership size returns the full owner
list. -/
theorem owners_full_formula (order : List Ring.Node) (key : Str) :
    Ring.Owners order key (order.length : Int) = some (Ring.ownersFull order key) := by
  rw [owners_formula order key (Int.ofNat_nonneg _)]
  unfold Ring.ownersFull
  congr 1
  rw [Int.toNat_ofNat, min_self]
  rw [List.take_of_length_le]
  rw [List.length_insertionSort]
  exact le_of_eq (List.length_map _ _)

/-- With pairwise-distinct scores the full owner list is strictly
descending in score. -/
theorem ownersFull_pairwise (order : List Ring.Node) (key : Str)
    (hnd : (order.map (Ring.scoreOf key)).Nodup) :
    (Ring.ownersFull order key).Pairwise
      (fun a b => Ring.scoreOf key b < Ring.scoreOf key a) := by
  have hndsnd : ((Ring.scoresOf order key).map Prod.snd).Nodup := by
    rw [scoresOf_map_snd]
    exact hnd
  have hnds : ((List.insertionSort Ring.scoreGe (Ring.scoresOf order key)).map Prod.snd).Nodup :=
    ((List.perm_insertionSort _ _).map Prod.snd).nodup_iff.mpr hndsnd
  have hsorted : List.Sorted Ring.scoreGt
      (List.insertionSort Ring.scoreGe (Ring.scoresOf order key)) :=
    sorted_scoreGt_of_nodup (List.sorted_insertionSort _ _) hnds
  unfold Ring.ownersFull
  rw [List.pairwise_map]
  refine List.Pairwise.imp_of_mem ?_ hsorted
  intro a b ha hb hab
  have hamem : a ∈ Ring.scoresOf order key := (List.perm_insertionSort _ _).subset ha
  have hbmem : b ∈ Ring.scoresOf order key := (List.perm_insertionSort _ _).subset hb
  have ha2 := scoresOf_mem_snd hamem
  have hb2 := scoresOf_mem_snd hbmem
  have : b.2 < a.2 := hab
  rw [ha2, hb2] at this
  exact this

/-- In a strictly score-descending list the head bounds every member. -/
theorem pairwise_desc_head (key : Str) {hd : Ring.Node} {t : List Ring.Node}
    (hp : (hd :: t).Pairwise (fun a b => Ring.scoreOf key b < Ring.scoreOf key a)) :
    ∀ a ∈ hd :: t, Ring.scoreOf key a ≤ Ring.scoreOf key hd := by
  intro a ha
  rcases List.mem_cons.mp ha with rfl | ha2
  · exact le_refl _
  · exact le_of_lt ((List.pairwise_cons.mp hp).1 a ha2)

/-- maxScore over a cons steps by a binary max. -/
theorem maxScore_cons (key : Str) (m : Ring.Node) (ms : List Ring.Node) :
    Ring.maxScore key (m :: ms) = max (Ring.scoreOf key m) (Ring.maxScore key ms) := rfl

/-- Every member score is bounded by maxScore. -/
theorem maxScore_ge (key : Str) (M : List Ring.Node) :
    ∀ nd ∈ M, Ring.scoreOf key nd ≤ Ring.maxScore key M := by
  induction M with
  | nil => intro nd h; cases h
  | cons m ms ih =>
    intro nd h
    rcases List.mem_cons.mp h with rfl | h2
    · rw [maxScore_cons]
      exact le_max_left _ _
    · rw [maxScore_cons]
      exact (ih nd h2).trans (le_max_right _ _)

/-- A nonempty membership attains its maxScore. -/
theorem maxScore_exists (key : Str) : ∀ (M : List Ring.Node), M ≠ [] →
    ∃ nd ∈ M, Ring.maxScore key M = Ring.scoreOf key nd := by
  intro M
  induction M with
  | nil => intro h; exact absurd rfl h
  | cons m ms ih =>
    intro _
    cases ms with
    | nil =>
      refine ⟨m, List.mem_cons_self _ _, ?_⟩
      rw [maxScore_cons]
      simp [Ring.maxScore]
    | cons m2 ms2 =>
      rcases ih (by simp) with ⟨nd, hnd, heq⟩
      rcases le_total (Ring.maxScore key (m2 :: ms2)) (Ring.scoreOf key m) with hle | hle
      · exact ⟨m, List.mem_cons_self _ _, by rw [maxScore_cons]; exact max_eq_left hle⟩
      · exact ⟨nd, List.mem_cons_of_mem _ hnd, by rw [maxScore_cons, max_eq_right hle]; exact heq⟩

/-- Claim C5 amended: when the scores of the key over the grown membership
are pairwise distinct (no tie), adding node x changes the primary owner
exactly when the score of x strictly exceeds the maximum score over the
old membership, and the relative order of the old nodes in the full owner
list is unchanged (removing x from the new owner list recovers the old
owner list); with a tie the change set is not characterized this way. -/
theorem addnode_primary_change_characterization
    (M : List Ring.Node) (x : Ring.Node) (key : Str)
    (orderB orderA : List Ring.Node)
    (hpb : List.Perm orderB M) (hpa : List.Perm orderA (x :: M))
    (hids : ((x :: M).map Ring.Node.ID).Nodup)
    (hscores : ((x :: M).map (Ring.scoreOf key)).Nodup)
    (hM : M ≠ []) :
    ∃ before after,
      Ring.Owners orderB key (M.length : Int) = some before ∧
      Ring.Owners orderA key ((M.length : Int) + 1) = some after ∧
      (after.head? ≠ before.head? ↔ Ring.maxScore key M < Ring.scoreOf key x) ∧
      after.filter (fun nd => decide (nd.ID ≠ x.ID)) = before := by
  have hscM : (M.map (Ring.scoreOf key)).Nodup := by
    rw [List.map_cons] at hscores
    exact hscores.of_cons
  have hxid : x.ID ∉ M.map Ring.Node.ID := by
    rw [List.map_cons] at hids
    exact (List.nodup_cons.mp hids).1
  have hxM : x ∉ M := fun hm => hxid (List.mem_map_of_mem _ hm)
  have hinj := List.inj_on_of_nodup_map hscores
  have hOB : Ring.Owners orderB key ((M.length : Nat) : Int) = some (Ring.ownersFull M key) := by
    have h1 : ((M.length : Nat) : Int) = ((orderB.length : Nat) : Int) := by
      rw [hpb.length_eq]
    rw [h1, owners_full_formula]
    congr 1
    unfold Ring.ownersFull
    have hndM2 : ((Ring.scoresOf M key).map Prod.snd).Nodup := by
      rw [scoresOf_map_snd]
      exact hscM
    have hpsc : List.Perm (Ring.scoresOf orderB key) (Ring.scoresOf M key) := hpb.map _
    have hndO : ((Ring.scoresOf orderB key).map Prod.snd).Nodup :=
      ((hpsc.map Prod.snd).nodup_iff).mpr hndM2
    rw [insertionSort_scoreGe_eq_of_perm hpsc hndO]
  have hOA : Ring.Owners orderA key ((M.length : Int) + 1) =
      some (Ring.ownersFull (x :: M) key) := by
    have h1 : ((M.length : Int) + 1) = ((orderA.length : Nat) : Int) := by
      rw [hpa.length_eq, List.length_cons]
      omega
    rw [h1, owners_full_formula]
    congr 1
    unfold Ring.ownersFull
    have hndM2 : ((Ring.scoresOf (x :: M) key).map Prod.snd).Nodup := by
      rw [scoresOf_map_snd]
      exact hscores
    have hpsc : List.Perm (Ring.scoresOf orderA key) (Ring.scoresOf (x :: M) key) := hpa.map _
    have hndO : ((Ring.scoresOf orderA key).map Prod.snd).Nodup :=
      ((hpsc.map Prod.snd).nodup_iff).mpr hndM2
    rw [insertionSort_scoreGe_eq_of_perm hpsc hndO]
  refine ⟨Ring.ownersFull M key, Ring.ownersFull (x :: M) key, hOB, hOA, ?_, ?_⟩
  · have hpA : List.Perm (Ring.ownersFull (x :: M) key) (x :: M) := ownersFull_perm _ _
    have hpB : List.Perm (Ring.ownersFull M key) M := ownersFull_perm _ _
    have hAP := ownersFull_pairwise (x :: M) key hscores
    have hBP := ownersFull_pairwise M key hscM
    have hAne : Ring.ownersFull (x :: M) key ≠ [] := by
      intro h
      have h2 := hpA.length_eq
      rw [h] at h2
      simp at h2
    have hBne : Ring.ownersFull M key ≠ [] := by
      intro h
      have h2 := hpB.length_eq
      rw [h] at h2
      exact hM (List.length_eq_zero.mp h2.symm)
    obtain ⟨a, At, hAcons⟩ := List.exists_cons_of_ne_nil hAne
    obtain ⟨b, Bt, hBcons⟩ := List.exists_cons_of_ne_nil hBne
    rw [hAcons] at hpA hAP
    rw [hBcons] at hpB hBP
    rw [hAcons, hBcons]
    simp only [List.head?_cons, ne_eq, Option.some.injEq]
    have haMem : a ∈ x :: M := hpA.subset (List.mem_cons_self a At)
    have hbMem : b ∈ M := hpB.subset (List.mem_cons_self b Bt)
    have haTop : ∀ y ∈ x :: M, Ring.scoreOf key y ≤ Ring.scoreOf key a := by
      intro y hy
      exact pairwise_desc_head key hAP y (hpA.mem_iff.mpr hy)
    have hbTop : ∀ y ∈ M, Ring.scoreOf key y ≤ Ring.scoreOf key b := by
      intro y hy
      exact pairwise_desc_head key hBP y (hpB.mem_iff.mpr hy)
    rcases maxScore_exists key M hM with ⟨nd0, hnd0, hmax0⟩
    have hbmax : Ring.scoreOf key b = Ring.maxScore key M := by
      have h1 := maxScore_ge key M b hbMem
      have h2 : Ring.maxScore key M ≤ Ring.scoreOf key b := by
        rw [hmax0]
        exact hbTop nd0 hnd0
      exact le_antisymm h1 h2
    by_cases hlt : Ring.maxScore key M < Ring.scoreOf key x
    · have hax : a = x := by
        by_contra haxne
        have haM : a ∈ M := by
          rcases List.mem_cons.mp haMem with h | h
          · exact absurd h haxne
          · exact h
        have h1 : Ring.scoreOf key a ≤ Ring.maxScore key M := maxScore_ge key M a haM
        have h2 : Ring.scoreOf key x ≤ Ring.scoreOf key a := haTop x (List.mem_cons_self _ _)
        omega
      have hbx : ¬ (b = x) := fun h => hxM (h ▸ hbMem)
      have hab : ¬ (a = b) := by
        rw [hax]
        exact fun h => hbx h.symm
      exact iff_of_true hab hlt
    · have hxnd0 : Ring.scoreOf key x ≠ Ring.scoreOf key nd0 := by
        intro hcontra
        have hxeq : x = nd0 :=
          hinj (List.mem_cons_self _ _) (List.mem_cons_of_mem _ hnd0) hcontra
        exact hxM (hxeq ▸ hnd0)
      have hxlt : Ring.scoreOf key x < Ring.scoreOf key nd0 := by
        rw [hmax0] at hlt
        omega
      have haM : a ∈ M := by
        rcases List.mem_cons.mp haMem with rfl | h
        · exfalso
          have h2 := haTop nd0 (List.mem_cons_of_mem _ hnd0)
          omega
        · exact h
      have hamax : Ring.scoreOf key a = Ring.maxScore key M := by
        have h1 := maxScore_ge key M a haM
        have h2 : Ring.maxScore key M ≤ Ring.scoreOf key a := by
          rw [hmax0]
          exact haTop nd0 (List.mem_cons_of_mem _ hnd0)
        exact le_antisymm h1 h2
      have hab : a = b :=
        hinj (List.mem_cons_of_mem _ haM) (List.mem_cons_of_mem _ hbMem)
          (by rw [hamax, hbmax])
      exact iff_of_false (by simp [hab]) hlt
  · have hpA : List.Perm (Ring.ownersFull (x :: M) key) (x :: M) := ownersFull_perm _ _
    have hpB : List.Perm (Ring.ownersFull M key) M := ownersFull_perm _ _
    have hAP := ownersFull_pairwise (x :: M) key hscores
    have hBP := ownersFull_pairwise M key hscM
    have hfilterxM : (x :: M).filter (fun nd => decide (nd.ID ≠ x.ID)) = M := by
      rw [List.filter_cons_of_neg (by simp)]
      exact List.filter_eq_self.mpr (fun nd hnd => by
        simp only [decide_eq_true_eq]
        intro heq
        exact hxid (heq ▸ List.mem_map_of_mem _ hnd))
    have hpf : List.Perm
        ((Ring.ownersFull (x :: M) key).filter (fun nd => decide (nd.ID ≠ x.ID)))
        (Ring.ownersFull M key) := by
      have h1 := hpA.filter (fun nd => decide (nd.ID ≠ x.ID))
      rw [hfilterxM] at h1
      exact h1.trans hpB.symm
    have hfp : ((Ring.ownersFull (x :: M) key).filter
        (fun nd => decide (nd.ID ≠ x.ID))).Pairwise
        (fun p q => Ring.scoreOf key q < Ring.scoreOf key p) :=
      List.Pairwise.sublist (List.filter_sublist _) hAP
    exact @List.eq_of_perm_of_sorted _ _
      ⟨fun p q h1 h2 => absurd (lt_trans h1 h2) (lt_irrefl _)⟩ _ _ hpf hfp hBP

set_option maxRecDepth 100000 in
/-- Witness for the amended claim C5 at a concrete input. -/
theorem addnode_primary_change_characterization_witness :
    (List.Perm [rNode2, rNode1] [rNode1, rNode2] ∧
        List.Perm [rNode2, rNode3, rNode1] [rNode3, rNode1, rNode2] ∧
        (([rNode3, rNode1, rNode2].map Ring.Node.ID).Nodup) ∧
        (([rNode3, rNode1, rNode2].map (Ring.scoreOf (strBytes "pkey"))).Nodup) ∧
        (([rNode1, rNode2] : List Ring.Node) ≠ [])) ∧
      ∃ before after,
        Ring.Owners [rNode2, rNode1] (strBytes "pkey")
            ((([rNode1, rNode2] : List Ring.Node).length : Int)) = some before ∧
        Ring.Owners [rNode2, rNode3, rNode1] (strBytes "pkey")
            ((([rNode1, rNode2] : List Ring.Node).length : Int) + 1) = some after ∧
        (after.head? ≠ before.head? ↔
          Ring.maxScore (strBytes "pkey") [rNode1, rNode2] <
            Ring.scoreOf (strBytes "pkey") rNode3) ∧
        after.filter (fun nd => decide (nd.ID ≠ rNode3.ID)) = before :=
  ⟨⟨by decide, by decide, by decide, by decide, by decide⟩,
    addnode_primary_change_characterization [rNode1, rNode2] rNode3 (strBytes "pkey")
      [rNode2, rNode1] [rNode2, rNode3, rNode1] (by decide) (by decide) (by decide)
      (by decide) (by decide)⟩

/-- Lookup after an in-place update at the same key. -/
theorem alookup_aupdate_eq (f : Rec → Rec) (m : List (Str × Rec)) (k : Str) :
    alookup (aupdate f m k) k = (alookup m k).map f := by
  induction m with
  | nil => rfl
  | cons p rest ih =>
    by_cases h : p.1 = k
    · simp [CacheMap.aupdate, CacheMap.alookup, h]
    · simp [CacheMap.aupdate, CacheMap.alookup, h, ih]

/-- Lookup after an in-place update at a different key. -/
theorem alookup_aupdate_ne (f : Rec → Rec) (m : List (Str × Rec)) {k k2 : Str} (h : k ≠ k2) :
    alookup (aupdate f m k) k2 = alookup m k2 := by
  induction m with
  | nil => rfl
  | cons p rest ih =>
    by_cases h1 : p.1 = k
    · have h2 : ¬ (p.1 = k2) := by rw [h1]; exact h
      simp [CacheMap.aupdate, CacheMap.alookup, h1, h2, h]
    · by_cases h2 : p.1 = k2
      · simp [CacheMap.aupdate, CacheMap.alookup, h1, h2, Ne.symm h]
      · simp [CacheMap.aupdate, CacheMap.alookup, h1, h2, ih]

/-- Lookup after erasing a different key. -/
theorem alookup_aerase_ne (m : List (Str × Rec)) {k k2 : Str} (h : k ≠ k2) :
    alookup (aerase m k) k2 = alookup m k2 := by
  induction m with
  | nil => rfl
  | cons p rest ih =>
    by_cases h1 : p.1 = k
    · have h2 : ¬ (p.1 = k2) := by rw [h1]; exact h
      simp [CacheMap.aerase, CacheMap.alookup, h1, h2, h]
    · by_cases h2 : p.1 = k2
      · simp [CacheMap.aerase, CacheMap.alookup, h1, h2, Ne.symm h]
      · simp [CacheMap.aerase, CacheMap.alookup, h1, h2, ih]

/-- Keys of the map after erasing a key. -/
theorem keysOf_aerase (m : List (Str × Rec)) (k : Str) :
    keysOf (aerase m k) = (keysOf m).erase k := by
  induction m with
  | nil => rfl
  | cons p rest ih =>
    by_cases h : p.1 = k
    · simp [CacheMap.aerase, CacheMap.keysOf, h, List.erase_cons]
    · simp [CacheMap.aerase, CacheMap.keysOf, List.erase_cons, h] at ih ⊢
      exact ih

/-- Update keeps the key list. -/
theorem keysOf_aupdate (f : Rec → Rec) (m : List (Str × Rec)) (k : Str) :
    keysOf (aupdate f m k) = keysOf m := by
  induction m with
  | nil => rfl
  | cons p rest ih =>
    by_cases h : p.1 = k
    · simp [CacheMap.aupdate, CacheMap.keysOf, h]
    · simp [CacheMap.aupdate, CacheMap.keysOf, h] at ih ⊢
      exact ih

/-- A key is absent exactly when it is not among the map keys. -/
theorem alookup_eq_none_iff (m : List (Str × Rec)) (k : Str) :
    alookup m k = none ↔ k ∉ keysOf m := by
  induction m with
  | nil => simp [CacheMap.alookup, CacheMap.keysOf]
  | cons p rest ih =>
    by_cases h : p.1 = k
    · simp [CacheMap.alookup, CacheMap.keysOf, h]
    · simp only [CacheMap.alookup, h, if_false, CacheMap.keysOf, List.map_cons, List.mem_cons]
      rw [CacheMap.keysOf] at ih
      rw [ih]
      constructor
      · intro hnk hor
        rcases hor with heq | hmem
        · exact h heq.symm
        · exact hnk hmem
      · intro hnor hmem
        exact hnor (Or.inr hmem)

/-- Lookup after erasing the key itself, when map keys are distinct. -/
theorem alookup_aerase_self (m : List (Str × Rec)) (k : Str) (hnd : (keysOf m).Nodup) :
    alookup (aerase m k) k = none := by
  rw [alookup_eq_none_iff, keysOf_aerase]
  intro hmem
  exact ((List.Nodup.mem_erase_iff hnd).mp hmem).1 rfl

/-- Inserting an absent key appends it to the key list. -/
theorem keysOf_aset_not_mem (m : List (Str × Rec)) (k : Str) (r : Rec)
    (h : alookup m k = none) :
    keysOf (aset m k r) = keysOf m ++ [k] := by
  induction m with
  | nil => rfl
  | cons p rest ih =>
    by_cases h1 : p.1 = k
    · simp [CacheMap.alookup, h1] at h
    · simp only [CacheMap.alookup, h1, if_false] at h
      simp [CacheMap.aset, CacheMap.keysOf, h1] at ih ⊢
      exact ih h

/-- Lookup after inserting a binding at the same key. -/
theorem alookup_aset_eq (m : List (Str × Rec)) (k : Str) (r : Rec) :
    alookup (aset m k r) k = some r := by
  induction m with
  | nil => simp [CacheMap.aset, CacheMap.alookup]
  | cons p rest ih =>
    by_cases h : p.1 = k
    · simp [CacheMap.aset, CacheMap.alookup, h]
    · simp [CacheMap.aset, CacheMap.alookup, h, ih]

/-- Lookup after inserting a binding at a different key. -/
theorem alookup_aset_ne (m : List (Str × Rec)) {k k2 : Str} (r : Rec) (h : k ≠ k2) :
    alookup (aset m k r) k2 = alookup m k2 := by
  induction m with
  | nil =>
    simp [CacheMap.aset, CacheMap.alookup]
    exact h
  | cons p rest ih =>
    by_cases h1 : p.1 = k
    · have h2 : ¬ (p.1 = k2) := by rw [h1]; exact h
      simp [CacheMap.aset, CacheMap.alookup, h1, h2, h]
    · by_cases h2 : p.1 = k2
      · simp [CacheMap.aset, CacheMap.alookup, h1, h2, Ne.symm h]
      · simp [CacheMap.aset, CacheMap.alookup, h1, h2, ih]

/-- Characterization of a nonempty chain segment. -/
theorem chain_cons_iff {m : List (Str × Rec)} {pk nk : Option Str} {k : Str} {rest : List Str} :
    chain m pk (k :: rest) nk ↔
      ∃ r, alookup m k = some r ∧ r.prev = pk ∧ r.next = junction rest nk ∧
        chain m (some k) rest nk := by
  simp only [chain]
  cases hm : alookup m k with
  | none => simp
  | some r => simp

/-- A chain only looks at the links stored at its own keys. -/
theorem chain_congr {m m2 : List (Str × Rec)} {L : List Str} {nk : Option Str} :
    ∀ {pk}, (∀ k ∈ L, (alookup m2 k).map (fun r => (r.prev, r.next)) =
      (alookup m k).map (fun r => (r.prev, r.next))) →
    chain m pk L nk → chain m2 pk L nk := by
  induction L with
  | nil => intro pk _ _; trivial
  | cons k rest ih =>
    intro pk h hc
    rcases chain_cons_iff.mp hc with ⟨r, hm, hprev, hnext, hrest⟩
    have hk := h k (List.mem_cons_self _ _)
    rw [hm] at hk
    cases hm2 : alookup m2 k with
    | none => rw [hm2] at hk; simp at hk
    | some r2 =>
      rw [hm2] at hk
      simp only [Option.map_some', Option.some.injEq, Prod.mk.injEq] at hk
      exact chain_cons_iff.mpr ⟨r2, hm2, hk.1 ▸ hprev, hk.2 ▸ hnext,
        ih (fun k2 hk2 => h k2 (List.mem_cons_of_mem _ hk2)) hrest⟩

/-- The back junction steps over a cons. -/
theorem backJunction_cons (pk : Option Str) (k1 : Str) (rest : List Str) :
    backJunction pk (k1 :: rest) = backJunction (some k1) rest := by
  cases rest with
  | nil => rfl
  | cons r2 rs =>
    have h : (r2 :: rs).getLast? = some ((r2 :: rs).getLast (by simp)) :=
      List.getLast?_eq_getLast _ _
    simp [backJunction, List.getLast?_cons_cons, h]

/-- The junction of a segment followed by nothing is its head. -/
theorem junction_none (L : List Str) : junction L none = L.head? := by
  cases L <;> rfl

/-- Walking from a missing start yields nothing. -/
theorem walkBy_none (m : List (Str × Rec)) (f : Rec → Option Str) (fuel : Nat) :
    walkBy m f fuel none = [] := by
  cases fuel <;> rfl

/-- Splitting a chain at a designated key. -/
theorem chain_split {m : List (Str × Rec)} {L1 L2 : List Str} {k : Str} {nk : Option Str} :
    ∀ {pk}, chain m pk (L1 ++ k :: L2) nk →
      ∃ r, alookup m k = some r ∧ r.prev = backJunction pk L1 ∧ r.next = junction L2 nk ∧
        chain m pk L1 (some k) ∧ chain m (some k) L2 nk := by
  induction L1 with
  | nil =>
    intro pk hc
    simp only [List.nil_append] at hc
    rcases chain_cons_iff.mp hc with ⟨r, hm, hprev, hnext, hrest⟩
    exact ⟨r, hm, hprev, hnext, trivial, hrest⟩
  | cons k1 rest ih =>
    intro pk hc
    simp only [List.cons_append] at hc
    rcases chain_cons_iff.mp hc with ⟨r1, hm, hprev, hnext, hrest⟩
    rcases ih hrest with ⟨r, hr, hrp, hrn, hcl, hcr⟩
    refine ⟨r, hr, ?_, hrn, ?_, hcr⟩
    · rw [hrp, backJunction_cons]
    · refine chain_cons_iff.mpr ⟨r1, hm, hprev, ?_, hcl⟩
      rw [hnext]
      cases rest <;> rfl

/-- Joining two chain segments. -/
theorem chain_join {m : List (Str × Rec)} {L1 L2 : List Str} {nk : Option Str} :
    ∀ {pk}, chain m pk L1 (junction L2 nk) → chain m (backJunction pk L1) L2 nk →
      chain m pk (L1 ++ L2) nk := by
  induction L1 with
  | nil =>
    intro pk _ h2
    simpa [backJunction] using h2
  | cons k1 rest ih =>
    intro pk h1 h2
    rcases chain_cons_iff.mp h1 with ⟨r1, hm, hprev, hnext, hrest⟩
    rw [backJunction_cons] at h2
    simp only [List.cons_append]
    refine chain_cons_iff.mpr ⟨r1, hm, hprev, ?_, ih hrest h2⟩
    rw [hnext]
    cases rest <;> rfl

/-- Replacing the forward link of the last key of a chain segment. -/
theorem chain_retarget_last {m m1 : List (Str × Rec)} {L1 : List Str} {k : Str}
    (hcl : chain m none L1 (some k))
    (hne : L1 ≠ [])
    (hnd : L1.Nodup)
    (hagree : ∀ k2 ∈ L1, alookup m1 k2 = alookup m k2)
    (nk2 : Option Str) :
    ∃ j, L1.getLast? = some j ∧
      chain (aupdate (fun r => { r with next := nk2 }) m1 j) none L1 nk2 := by
  rcases (List.eq_nil_or_concat L1).resolve_left hne with ⟨L1i, j, hL1⟩
  rw [List.concat_eq_append] at hL1
  subst hL1
  rcases chain_split (show chain m none (L1i ++ j :: []) (some k) from hcl) with
    ⟨rj, hrj, hrjp, _, hcli, _⟩
  have hjlast : (L1i ++ [j]).getLast? = some j := List.getLast?_concat _
  refine ⟨j, hjlast, ?_⟩
  rcases List.nodup_append.mp hnd with ⟨_, _, hdisj⟩
  have hjni : j ∉ L1i := fun hmem => hdisj hmem (List.mem_singleton.mpr rfl)
  refine chain_join ?_ ?_
  · refine chain_congr (fun k2 hk2 => ?_) hcli
    have hne2 : j ≠ k2 := fun heq => hjni (heq ▸ hk2)
    rw [alookup_aupdate_ne _ _ hne2, hagree k2 (List.mem_append_left _ hk2)]
  · refine chain_cons_iff.mpr ⟨{ rj with next := nk2 }, ?_, hrjp, rfl, trivial⟩
    rw [alookup_aupdate_eq, hagree j (List.mem_append_right _ (List.mem_singleton.mpr rfl)), hrj]
    rfl

/-- Replacing the back link of the first key of a chain segment. -/
theorem chain_retarget_head {m m1 : List (Str × Rec)} {k2 : Str} {L2t : List Str}
    {pk0 : Option Str}
    (hcr : chain m pk0 (k2 :: L2t) none)
    (hnd : (k2 :: L2t).Nodup)
    (hagree : ∀ kk ∈ k2 :: L2t, alookup m1 kk = alookup m kk)
    (pk2 : Option Str) :
    chain (aupdate (fun r => { r with prev := pk2 }) m1 k2) pk2 (k2 :: L2t) none := by
  rcases chain_cons_iff.mp hcr with ⟨r2, hm, _, hnext, hrest⟩
  rcases List.nodup_cons.mp hnd with ⟨hk2ni, _⟩
  refine chain_cons_iff.mpr ⟨{ r2 with prev := pk2 }, ?_, rfl, hnext, ?_⟩
  · rw [alookup_aupdate_eq, hagree k2 (List.mem_cons_self _ _), hm]
    rfl
  · refine chain_congr (fun kk hkk => ?_) hrest
    have hne2 : k2 ≠ kk := fun heq => hk2ni (heq ▸ hkk)
    rw [alookup_aupdate_ne _ _ hne2, hagree kk (List.mem_cons_of_mem _ hkk)]

/-- Walking forward along a chain that ends in none lists exactly the
segment. -/
theorem walkBy_next_of_chain (m : List (Str × Rec)) :
    ∀ (L : List Str) (pk : Option Str) (fuel : Nat), chain m pk L none → L.length ≤ fuel →
      walkBy m Rec.next fuel (junction L none) = L := by
  intro L
  induction L with
  | nil => intro pk fuel _ _; exact walkBy_none m _ fuel
  | cons k rest ih =>
    intro pk fuel hc hfuel
    rcases chain_cons_iff.mp hc with ⟨r, hm, _, hnext, hrest⟩
    cases fuel with
    | zero => simp at hfuel
    | succ f =>
      show walkBy m Rec.next (f + 1) (some k) = k :: rest
      simp only [walkBy, hm]
      rw [hnext, ih (some k) f hrest (by simpa using hfuel)]

/-- Walking backward from the last key of a chain segment lists the
segment reversed and then continues from the left neighbour. -/
theorem walkBy_prev_of_chain (m : List (Str × Rec)) :
    ∀ (L : List Str) (pk nk : Option Str) (fuel : Nat), chain m pk L nk → L ≠ [] →
      walkBy m Rec.prev (L.length + fuel) L.getLast? =
        L.reverse ++ walkBy m Rec.prev fuel pk := by
  intro L
  induction L with
  | nil => intro pk nk fuel _ h; exact absurd rfl h
  | cons k rest ih =>
    intro pk nk fuel hc _
    rcases chain_cons_iff.mp hc with ⟨r, hm, hprev, _, hrest⟩
    cases rest with
    | nil =>
      show walkBy m Rec.prev (1 + fuel) (some k) = [k] ++ walkBy m Rec.prev fuel pk
      have h1 : 1 + fuel = fuel + 1 := Nat.add_comm _ _
      rw [h1]
      simp only [walkBy, hm]
      rw [hprev]
      rfl
    | cons k2 rest2 =>
      have hlast : (k :: k2 :: rest2).getLast? = (k2 :: rest2).getLast? :=
        List.getLast?_cons_cons
      have hih := ih (some k) nk (fuel + 1) hrest (by simp)
      have hlen : (k :: k2 :: rest2).length + fuel = (k2 :: rest2).length + (fuel + 1) := by
        simp [List.length_cons]
        omega
      rw [hlast, hlen, hih]
      have hwk : walkBy m Rec.prev (fuel + 1) (some k) = k :: walkBy m Rec.prev fuel pk := by
        simp only [walkBy, hm]
        rw [hprev]
      rw [hwk]
      simp

/-- A link-only update never changes the value projection of any lookup. -/
theorem alookup_aupdate_map_val (f : Rec → Rec)
    (hf : ∀ r, (f r).value = r.value ∧ (f r).expiresAt = r.expiresAt)
    (m : List (Str × Rec)) (k k2 : Str) :
    (alookup (aupdate f m k) k2).map (fun r => (r.value, r.expiresAt)) =
      (alookup m k2).map (fun r => (r.value, r.expiresAt)) := by
  by_cases h : k = k2
  · subst h
    rw [alookup_aupdate_eq]
    cases alookup m k with
    | none => rfl
    | some r => simp [(hf r).1, (hf r).2]
  · rw [alookup_aupdate_ne _ _ h]

/-- The effect of Cache.removeEntry on a well-formed state: the key is
unlinked and dropped from the map, its neighbours are joined, head and
tail follow, the size drops by one, and all other entries keep their
values. -/
theorem removeEntry_spec (c : Cache) (k : Str) (e : Rec) (L1 L2 : List Str)
    (hchain : chain c.entries none (L1 ++ k :: L2) none)
    (hnd : (L1 ++ k :: L2).Nodup)
    (hlook : alookup c.entries k = some e)
    (hhead : c.head = (L1 ++ k :: L2).head?)
    (htail : c.tail = (L1 ++ k :: L2).getLast?)
    (hknd : (keysOf c.entries).Nodup) :
    chain (Cache.removeEntry c k e).entries none (L1 ++ L2) none ∧
    (Cache.removeEntry c k e).head = (L1 ++ L2).head? ∧
    (Cache.removeEntry c k e).tail = (L1 ++ L2).getLast? ∧
    keysOf (Cache.removeEntry c k e).entries = (keysOf c.entries).erase k ∧
    (Cache.removeEntry c k e).size = c.size - 1 ∧
    (Cache.removeEntry c k e).capacity = c.capacity ∧
    (∀ k2, k2 ≠ k → (alookup (Cache.removeEntry c k e).entries k2).map
        (fun r => (r.value, r.expiresAt)) =
      (alookup c.entries k2).map (fun r => (r.value, r.expiresAt))) ∧
    alookup (Cache.removeEntry c k e).entries k = none := by
  rcases chain_split hchain with ⟨r, hr, hrp, hrn, hcl, hcr⟩
  have hre : r = e := by
    rw [hlook] at hr
    exact (Option.some.injEq _ _).mp hr.symm
  subst hre
  rcases List.nodup_append.mp hnd with ⟨hndL1, hndkL2, hdisj⟩
  rcases List.nodup_cons.mp hndkL2 with ⟨hkL2, hndL2⟩
  have hkL1 : k ∉ L1 := fun hm => hdisj hm (List.mem_cons_self _ _)
  cases L1 with
  | nil =>
    have hrp2 : r.prev = none := hrp
    cases L2 with
    | nil =>
      have hrn2 : r.next = none := hrn
      simp only [Cache.removeEntry, hrp2, hrn2]
      refine ⟨?_, ?_, ?_, ?_, ?_, ?_, ?_, ?_⟩
      · trivial
      · trivial
      · trivial
      · exact keysOf_aerase _ _
      · trivial
      · trivial
      · intro k2 h2
        rw [alookup_aerase_ne _ (fun heq => h2 heq.symm)]
      · exact alookup_aerase_self _ _ hknd
    | cons k2 L2t =>
      have hrn2 : r.next = some k2 := hrn
      have hk2k : ¬ (k2 = k) := fun heq => hkL2 (heq ▸ List.mem_cons_self _ _)
      simp only [Cache.removeEntry, hrp2, hrn2]
      refine ⟨?_, ?_, ?_, ?_, ?_, ?_, ?_, ?_⟩
      · refine chain_retarget_head hcr hndL2 (fun kk hkk => ?_) none
        exact alookup_aerase_ne _ (fun heq => hkL2 (heq ▸ hkk))
      · simp
      · rw [htail]
        simp [List.getLast?_cons_cons]
      · rw [keysOf_aupdate, keysOf_aerase]
      · trivial
      · trivial
      · intro k2x h2
        rw [alookup_aupdate_map_val (fun rr => { rr with prev := none })
          (fun rr => ⟨rfl, rfl⟩)]
        rw [alookup_aerase_ne _ (fun heq => h2 heq.symm)]
      · rw [alookup_aupdate_ne _ _ hk2k]
        exact alookup_aerase_self _ _ hknd
  | cons h1 L1t =>
    have hagreeA : ∀ k2 ∈ h1 :: L1t, alookup (aerase c.entries k) k2 = alookup c.entries k2 :=
      fun k2 hk2 => alookup_aerase_ne _ (fun heq => hkL1 (heq ▸ hk2))
    have hretarget := chain_retarget_last hcl (by simp) hndL1 hagreeA
    cases L2 with
    | nil =>
      rcases hretarget none with ⟨j, hjlast, hchainA⟩
      have hprev_eq : r.prev = some j := by
        rw [hrp]
        simp [backJunction, hjlast]
      have hrn2 : r.next = none := hrn
      have hjmem : j ∈ h1 :: L1t := List.mem_of_getLast?_eq_some hjlast
      have hjk : ¬ (j = k) := fun heq => hkL1 (heq ▸ hjmem)
      simp only [Cache.removeEntry, hprev_eq, hrn2]
      refine ⟨?_, ?_, ?_, ?_, ?_, ?_, ?_, ?_⟩
      · rw [List.append_nil]
        exact hchainA
      · rw [hhead]
        simp
      · rw [List.append_nil, hjlast]
      · rw [keysOf_aupdate, keysOf_aerase]
      · trivial
      · trivial
      · intro k2x h2
        rw [alookup_aupdate_map_val (fun rr => { rr with next := none })
          (fun rr => ⟨rfl, rfl⟩)]
        rw [alookup_aerase_ne _ (fun heq => h2 heq.symm)]
      · rw [alookup_aupdate_ne _ _ hjk]
        exact alookup_aerase_self _ _ hknd
    | cons k2 L2t =>
      rcases hretarget (some k2) with ⟨j, hjlast, hchainA⟩
      have hprev_eq : r.prev = some j := by
        rw [hrp]
        simp [backJunction, hjlast]
      have hrn2 : r.next = some k2 := hrn
      have hjmem : j ∈ h1 :: L1t := List.mem_of_getLast?_eq_some hjlast
      have hjk : ¬ (j = k) := fun heq => hkL1 (heq ▸ hjmem)
      have hk2L1 : k2 ∉ h1 :: L1t := fun hm =>
        hdisj hm (List.mem_cons_of_mem _ (List.mem_cons_self _ _))
      have hk2k : ¬ (k2 = k) := fun heq => hkL2 (heq ▸ List.mem_cons_self _ _)
      simp only [Cache.removeEntry, hprev_eq, hrn2]
      refine ⟨?_, ?_, ?_, ?_, ?_, ?_, ?_, ?_⟩
      · refine chain_join ?_ ?_
        · refine chain_congr (fun kk hkk => ?_) hchainA
          have hne : ¬ (k2 = kk) := fun heq => hk2L1 (heq ▸ hkk)
          rw [alookup_aupdate_ne _ _ hne]
        · have hbj : backJunction none (h1 :: L1t) = some j := by
            simp [backJunction, hjlast]
          rw [hbj]
          refine chain_retarget_head hcr hndL2 (fun kk hkk => ?_) (some j)
          have hne1 : ¬ (j = kk) := by
            intro heq
            subst heq
            exact hdisj hjmem (List.mem_cons_of_mem _ hkk)
          rw [alookup_aupdate_ne _ _ hne1]
          exact alookup_aerase_ne _ (fun heq => hkL2 (heq ▸ hkk))
      · rw [hhead]
        simp
      · rw [htail]
        rw [List.getLast?_append_of_ne_nil _ (by simp),
          List.getLast?_append_of_ne_nil _ (by simp), List.getLast?_cons_cons]
      · rw [keysOf_aupdate, keysOf_aupdate, keysOf_aerase]
      · trivial
      · trivial
      · intro k2x h2
        rw [alookup_aupdate_map_val (fun rr => { rr with prev := some j })
          (fun rr => ⟨rfl, rfl⟩)]
        rw [alookup_aupdate_map_val (fun rr => { rr with next := some k2 })
          (fun rr => ⟨rfl, rfl⟩)]
        rw [alookup_aerase_ne _ (fun heq => h2 heq.symm)]
      · rw [alookup_aupdate_ne _ _ hk2k, alookup_aupdate_ne _ _ hjk]
        exact alookup_aerase_self _ _ hknd

/-- The effect of Cache.addToFront on a state whose list does not contain
the key but whose map does: the key becomes the new head, linked before
the old list; nothing else changes. -/
theorem addToFront_spec (c : Cache) (k : Str) (L : List Str)
    (hchain : chain c.entries none L none)
    (hhead : c.head = L.head?)
    (htail : c.tail = L.getLast?)
    (hkmem : alookup c.entries k ≠ none)
    (hkL : k ∉ L)
    (hnd : L.Nodup) :
    chain (Cache.addToFront c k).entries none (k :: L) none ∧
    (Cache.addToFront c k).head = some k ∧
    (Cache.addToFront c k).tail = (k :: L).getLast? ∧
    keysOf (Cache.addToFront c k).entries = keysOf c.entries ∧
    (Cache.addToFront c k).size = c.size ∧
    (Cache.addToFront c k).capacity = c.capacity ∧
    (∀ k2, (alookup (Cache.addToFront c k).entries k2).map (fun r => (r.value, r.expiresAt)) =
      (alookup c.entries k2).map (fun r => (r.value, r.expiresAt))) := by
  obtain ⟨e0, hlook⟩ : ∃ e0, alookup c.entries k = some e0 := by
    cases hl : alookup c.entries k with
    | none => exact absurd hl hkmem
    | some e0 => exact ⟨e0, rfl⟩
  cases L with
  | nil =>
    have hh : c.head = none := hhead
    have ht : c.tail = none := htail
    simp only [Cache.addToFront, hh, ht]
    refine ⟨?_, ?_, ?_, ?_, ?_, ?_, ?_⟩
    · refine chain_cons_iff.mpr ⟨{ e0 with prev := none, next := none }, ?_, rfl, rfl, trivial⟩
      rw [alookup_aupdate_eq, hlook]
      rfl
    · trivial
    · trivial
    · exact keysOf_aupdate _ _ _
    · trivial
    · trivial
    · intro k2
      rw [alookup_aupdate_map_val (fun rr => { rr with prev := none, next := none })
        (fun rr => ⟨rfl, rfl⟩)]
  | cons h rest =>
    have hh : c.head = some h := hhead
    have hkh : ¬ (k = h) := fun heq => hkL (heq ▸ List.mem_cons_self _ _)
    cases hgl : (h :: rest).getLast? with
    | none => exact absurd (List.getLast?_eq_none_iff.mp hgl) (by simp)
    | some jt =>
      have ht : c.tail = some jt := by rw [htail, hgl]
      simp only [Cache.addToFront, hh, ht]
      refine ⟨?_, ?_, ?_, ?_, ?_, ?_, ?_⟩
      · refine chain_cons_iff.mpr ⟨{ e0 with prev := none, next := some h }, ?_, rfl, rfl, ?_⟩
        · rw [alookup_aupdate_ne _ _ (fun heq => hkh heq.symm), alookup_aupdate_eq, hlook]
          rfl
        · refine chain_retarget_head hchain hnd (fun kk hkk => ?_) (some k)
          exact alookup_aupdate_ne _ _ (fun heq => hkL (heq ▸ hkk))
      · trivial
      · rw [List.getLast?_cons_cons, hgl]
      · rw [keysOf_aupdate, keysOf_aupdate]
      · trivial
      · trivial
      · intro k2
        rw [alookup_aupdate_map_val (fun rr => { rr with prev := some k })
          (fun rr => ⟨rfl, rfl⟩)]
        rw [alookup_aupdate_map_val (fun rr => { rr with prev := none, next := some h })
          (fun rr => ⟨rfl, rfl⟩)]

/-- The effect of Cache.moveToFront on a well-formed state containing the
key: the recency order becomes the key followed by the rest, and the map
contents (keys and values), size and capacity are unchanged. -/
theorem moveToFront_spec (c : Cache) (k : Str) (e : Rec) (L : List Str)
    (hchain : chain c.entries none L none)
    (hhead : c.head = L.head?)
    (htail : c.tail = L.getLast?)
    (hnd : L.Nodup)
    (hlook : alookup c.entries k = some e)
    (hkL : k ∈ L) :
    chain (Cache.moveToFront c k e).entries none (k :: L.erase k) none ∧
    (Cache.moveToFront c k e).head = some k ∧
    (Cache.moveToFront c k e).tail = (k :: L.erase k).getLast? ∧
    keysOf (Cache.moveToFront c k e).entries = keysOf c.entries ∧
    (Cache.moveToFront c k e).size = c.size ∧
    (Cache.moveToFront c k e).capacity = c.capacity ∧
    (∀ k2, (alookup (Cache.moveToFront c k e).entries k2).map (fun r => (r.value, r.expiresAt)) =
      (alookup c.entries k2).map (fun r => (r.value, r.expiresAt))) := by
  by_cases hhd : c.head = some k
  · cases L with
    | nil =>
      rw [hhead] at hhd
      cases hhd
    | cons h t =>
      have hhk : h = k := by
        rw [hhead] at hhd
        exact (Option.some.injEq _ _).mp hhd
      subst hhk
      simp only [Cache.moveToFront, if_pos hhd]
      rw [List.erase_cons_head]
      exact ⟨hchain, hhd, htail, by simp, by simp, by simp, by simp⟩
  · obtain ⟨L1, L2, rfl⟩ := List.append_of_mem hkL
    rcases chain_split hchain with ⟨r, hr, hrp, hrn, hcl, hcr⟩
    have hre : r = e := by
      rw [hlook] at hr
      exact (Option.some.injEq _ _).mp hr.symm
    subst hre
    rcases List.nodup_append.mp hnd with ⟨hndL1, hndkL2, hdisj⟩
    rcases List.nodup_cons.mp hndkL2 with ⟨hkL2, hndL2⟩
    have hkL1 : k ∉ L1 := fun hm => hdisj hm (List.mem_cons_self _ _)
    have herase : (L1 ++ k :: L2).erase k = L1 ++ L2 := by
      rw [List.erase_append_right _ hkL1, List.erase_cons_head]
    rw [herase]
    cases L1 with
    | nil =>
      exfalso
      apply hhd
      rw [hhead]
      rfl
    | cons h1 L1t =>
      have hagreeA : ∀ k2 ∈ h1 :: L1t, alookup c.entries k2 = alookup c.entries k2 :=
        fun k2 hk2 => rfl
      have hretarget := chain_retarget_last hcl (by simp) hndL1 hagreeA
      cases L2 with
      | nil =>
        rcases hretarget none with ⟨j, hjlast, hchainA⟩
        have hprev_eq : r.prev = some j := by
          rw [hrp]
          simp [backJunction, hjlast]
        have hrn2 : r.next = none := hrn
        have hjmem : j ∈ h1 :: L1t := List.mem_of_getLast?_eq_some hjlast
        have hjk : ¬ (j = k) := fun heq => hkL1 (heq ▸ hjmem)
        have htl : c.tail = some k := by
          rw [htail, List.getLast?_append_of_ne_nil _ (by simp)]
          rfl
        simp only [Cache.moveToFront]
        rw [if_neg hhd]
        simp only [hprev_eq, hrn2]
        rw [if_pos htl]
        have hhead2 : c.head = (h1 :: L1t).head? := hhead
        have hmem2 : alookup (aupdate (fun rr => { rr with next := none }) c.entries j) k ≠ none := by
          rw [alookup_aupdate_ne _ _ hjk, hlook]
          exact fun hcon => Option.noConfusion hcon
        have hspec := addToFront_spec
          (Cache.mk (aupdate (fun rr => { rr with next := none }) c.entries j)
            c.head (some j) c.capacity c.size) k (h1 :: L1t)
          hchainA hhead2 hjlast.symm hmem2 hkL1 hndL1
        rcases hspec with ⟨hs1, hs2, hs3, hs4, hs5, hs6, hs7⟩
        rw [List.append_nil]
        refine ⟨hs1, hs2, hs3, ?_, hs5, hs6, ?_⟩
        · exact hs4.trans (keysOf_aupdate _ _ _)
        · intro k2
          exact (hs7 k2).trans (alookup_aupdate_map_val
            (fun rr => { rr with next := none }) (fun rr => ⟨rfl, rfl⟩) _ _ _)
      | cons k2 L2t =>
        rcases hretarget (some k2) with ⟨j, hjlast, hchainA⟩
        have hprev_eq : r.prev = some j := by
          rw [hrp]
          simp [backJunction, hjlast]
        have hrn2 : r.next = some k2 := hrn
        have hjmem : j ∈ h1 :: L1t := List.mem_of_getLast?_eq_some hjlast
        have hjk : ¬ (j = k) := fun heq => hkL1 (heq ▸ hjmem)
        have hk2L1 : k2 ∉ h1 :: L1t := fun hm =>
          hdisj hm (List.mem_cons_of_mem _ (List.mem_cons_self _ _))
        have hk2k : ¬ (k2 = k) := fun heq => hkL2 (heq ▸ List.mem_cons_self _ _)
        cases hgl : (k2 :: L2t).getLast? with
        | none => exact absurd (List.getLast?_eq_none_iff.mp hgl) (by simp)
        | some jt =>
          have hjtmem : jt ∈ k2 :: L2t := List.mem_of_getLast?_eq_some hgl
          have htlne : ¬ (c.tail = some k) := by
            rw [htail, List.getLast?_append_of_ne_nil _ (by simp),
              List.getLast?_cons_cons, hgl]
            intro hcon
            have : jt = k := (Option.some.injEq _ _).mp hcon
            exact hkL2 (this ▸ hjtmem)
          simp only [Cache.moveToFront]
          rw [if_neg hhd]
          simp only [hprev_eq, hrn2]
          rw [if_neg htlne]
          have hchain2 : chain
              (aupdate (fun rr => { rr with prev := some j })
                (aupdate (fun rr => { rr with next := some k2 }) c.entries j) k2)
              none ((h1 :: L1t) ++ k2 :: L2t) none := by
            refine chain_join ?_ ?_
            · refine chain_congr (fun kk hkk => ?_) hchainA
              have hne : ¬ (k2 = kk) := fun heq => hk2L1 (heq ▸ hkk)
              rw [alookup_aupdate_ne _ _ hne]
            · have hbj : backJunction none (h1 :: L1t) = some j := by
                simp [backJunction, hjlast]
              rw [hbj]
              refine chain_retarget_head hcr hndL2 (fun kk hkk => ?_) (some j)
              have hne1 : ¬ (j = kk) := by
                intro heq
                subst heq
                exact hdisj hjmem (List.mem_cons_of_mem _ hkk)
              rw [alookup_aupdate_ne _ _ hne1]
          have hhead2 : c.head = ((h1 :: L1t) ++ k2 :: L2t).head? := hhead
          have htail2 : c.tail = ((h1 :: L1t) ++ k2 :: L2t).getLast? := by
            rw [htail, List.getLast?_append_of_ne_nil _ (by simp),
              List.getLast?_cons_cons, List.getLast?_append_of_ne_nil _ (by simp)]
          have hmem2 : alookup
              (aupdate (fun rr => { rr with prev := some j })
                (aupdate (fun rr => { rr with next := some k2 }) c.entries j) k2) k ≠ none := by
            rw [alookup_aupdate_ne _ _ hk2k, alookup_aupdate_ne _ _ hjk, hlook]
            exact fun hcon => Option.noConfusion hcon
          have hkL12 : k ∉ (h1 :: L1t) ++ k2 :: L2t := by
            rw [List.mem_append]
            rintro (hm | hm)
            · exact hkL1 hm
            · exact hkL2 hm
          have hnd12 : ((h1 :: L1t) ++ k2 :: L2t).Nodup :=
            List.Nodup.sublist ((List.sublist_cons_self k (k2 :: L2t)).append_left _) hnd
          have hspec := addToFront_spec
            (Cache.mk (aupdate (fun rr => { rr with prev := some j })
                (aupdate (fun rr => { rr with next := some k2 }) c.entries j) k2)
              c.head c.tail c.capacity c.size) k ((h1 :: L1t) ++ k2 :: L2t)
            hchain2 hhead2 htail2 hmem2 hkL12 hnd12
          rcases hspec with ⟨hs1, hs2, hs3, hs4, hs5, hs6, hs7⟩
          refine ⟨hs1, hs2, hs3, ?_, hs5, hs6, ?_⟩
          · refine hs4.trans ?_
            rw [keysOf_aupdate, keysOf_aupdate]
          · intro k2x
            refine (hs7 k2x).trans ?_
            rw [alookup_aupdate_map_val (fun rr => { rr with prev := some j })
              (fun rr => ⟨rfl, rfl⟩)]
            rw [alookup_aupdate_map_val (fun rr => { rr with next := some k2 })
              (fun rr => ⟨rfl, rfl⟩)]

/-- A value-only update never changes the link projection of any lookup. -/
theorem alookup_aupdate_map_links (f : Rec → Rec)
    (hf : ∀ r, (f r).prev = r.prev ∧ (f r).next = r.next)
    (m : List (Str × Rec)) (k k2 : Str) :
    (alookup (aupdate f m k) k2).map (fun r => (r.prev, r.next)) =
      (alookup m k2).map (fun r => (r.prev, r.next)) := by
  by_cases h : k = k2
  · subst h
    rw [alookup_aupdate_eq]
    cases alookup m k with
    | none => rfl
    | some r => simp [(hf r).1, (hf r).2]
  · rw [alookup_aupdate_ne _ _ h]

/-- The two lawful equality tests on byte strings erase identically. -/
theorem erase_beq_eq (L : List Str) (k : Str) :
    @List.erase Str instBEqOfDecidableEq L k = L.erase k := by
  induction L with
  | nil => rfl
  | cons a l ih =>
    rw [@List.erase_cons Str instBEqOfDecidableEq, @List.erase_cons Str List.instBEq, ih]
    by_cases h : a = k
    · rw [if_pos (by simp [h]), if_pos (by simp [h])]
    · rw [if_neg (by simp [h]), if_neg (by simp [h])]

/-- A present key is in the recency order of a well-formed cache. -/
theorem mem_of_alookup_some {c : Cache} {L : List Str} {k : Str} {e : Rec}
    (hI : CacheInv c L) (hlook : alookup c.entries k = some e) : k ∈ L := by
  have h1 : k ∈ keysOf c.entries := by
    by_contra hnot
    rw [(alookup_eq_none_iff _ _).mpr hnot] at hlook
    cases hlook
  exact hI.keys_perm.subset h1

/-- Cache.removeEntry keeps the invariant, with the key dropped from the
recency order, the size down one, and all other values untouched. -/
theorem removeEntry_inv (c : Cache) (L : List Str) (k : Str) (e : Rec)
    (hI : CacheInv c L) (hlook : alookup c.entries k = some e) :
    CacheInv (Cache.removeEntry c k e) (L.erase k) ∧
    alookup (Cache.removeEntry c k e).entries k = none ∧
    (Cache.removeEntry c k e).capacity = c.capacity ∧
    (Cache.removeEntry c k e).size = c.size - 1 ∧
    (∀ k2, k2 ≠ k → (alookup (Cache.removeEntry c k e).entries k2).map
        (fun r => (r.value, r.expiresAt)) =
      (alookup c.entries k2).map (fun r => (r.value, r.expiresAt))) := by
  have hknd : (keysOf c.entries).Nodup := hI.keys_perm.nodup_iff.mpr hI.nodup
  obtain ⟨L1, L2, hL⟩ := List.append_of_mem (mem_of_alookup_some hI hlook)
  have hnd0 := hI.nodup
  rw [hL] at hnd0
  rcases List.nodup_append.mp hnd0 with ⟨_, _, hdisj⟩
  have hkL1 : k ∉ L1 := fun hm => hdisj hm (List.mem_cons_self _ _)
  have herase : L.erase k = L1 ++ L2 := by
    rw [hL, List.erase_append_right _ hkL1, List.erase_cons_head]
  have hchain := hI.chain_ok
  have hhead := hI.head_ok
  have htail := hI.tail_ok
  rw [hL] at hchain hhead htail
  rcases removeEntry_spec c k e L1 L2 hchain hnd0 hlook hhead htail hknd with
    ⟨h1, h2, h3, h4, h5, h6, h7, h8⟩
  rw [herase]
  have hlen : L.length = L1.length + L2.length + 1 := by
    rw [hL]
    simp [List.length_append, List.length_cons]
    omega
  refine ⟨⟨h1, h2, h3, ?_, ?_, ?_, ?_⟩, h8, h6, h5, h7⟩
  · rw [h4]
    have hperm := hI.keys_perm.erase k
    rw [erase_beq_eq, erase_beq_eq, herase] at hperm
    exact hperm
  · have hsub : List.Sublist (L1 ++ L2) L := by
      rw [hL]
      exact (List.sublist_cons_self k L2).append_left _
    exact List.Nodup.sublist hsub hI.nodup
  · rw [h5, hI.size_ok]
    simp [List.length_append]
    omega
  · rw [h5, h6]
    have := hI.cap_ok
    omega

/-- Cache.moveToFront keeps the invariant, with the key moved to the head
of the recency order and everything else untouched. -/
theorem moveToFront_inv (c : Cache) (L : List Str) (k : Str) (e : Rec)
    (hI : CacheInv c L) (hlook : alookup c.entries k = some e) :
    CacheInv (Cache.moveToFront c k e) (k :: L.erase k) ∧
    (Cache.moveToFront c k e).head = some k ∧
    (Cache.moveToFront c k e).capacity = c.capacity ∧
    (Cache.moveToFront c k e).size = c.size ∧
    (∀ k2, (alookup (Cache.moveToFront c k e).entries k2).map
        (fun r => (r.value, r.expiresAt)) =
      (alookup c.entries k2).map (fun r => (r.value, r.expiresAt))) := by
  have hkL := mem_of_alookup_some hI hlook
  rcases moveToFront_spec c k e L hI.chain_ok hI.head_ok hI.tail_ok hI.nodup hlook hkL with
    ⟨h1, h2, h3, h4, h5, h6, h7⟩
  have hpce : List.Perm L (k :: L.erase k) := by
    obtain ⟨L1, L2, hL⟩ := List.append_of_mem hkL
    have hnd0 := hI.nodup
    rw [hL] at hnd0
    rcases List.nodup_append.mp hnd0 with ⟨_, _, hdisj⟩
    have hkL1 : k ∉ L1 := fun hm => hdisj hm (List.mem_cons_self _ _)
    rw [hL, List.erase_append_right _ hkL1, List.erase_cons_head]
    exact List.perm_middle
  refine ⟨⟨h1, h2, h3, ?_, ?_, ?_, ?_⟩, h2, h6, h5, h7⟩
  · rw [h4]
    exact hI.keys_perm.trans hpce
  · exact hpce.nodup_iff.mp hI.nodup
  · rw [h5, hI.size_ok, hpce.length_eq]
  · rw [h5, h6]
    exact hI.cap_ok

/-- On a well-formed cache the two reachability walks list the recency
order forward and backward. -/
theorem cacheInv_reach {c : Cache} {L : List Str} (hI : CacheInv c L) :
    reachHead c = L ∧ reachTail c = L.reverse := by
  have hlen : c.entries.length = L.length := by
    have h1 := hI.keys_perm.length_eq
    rw [CacheMap.keysOf, List.length_map] at h1
    exact h1
  constructor
  · unfold reachHead
    rw [hI.head_ok, ← junction_none]
    exact walkBy_next_of_chain _ L none _ hI.chain_ok (le_of_eq hlen.symm)
  · unfold reachTail
    rw [hI.tail_ok]
    cases hL : L with
    | nil => exact walkBy_none _ _ _
    | cons h t =>
      rw [← hL]
      have hfuel : c.entries.length = L.length + 0 := by omega
      rw [hfuel]
      have := walkBy_prev_of_chain c.entries L none none 0 hI.chain_ok (by rw [hL]; simp)
      rw [this, walkBy_none]
      simp

/-- A key among the map keys has a binding. -/
theorem alookup_isSome_of_mem_keys {m : List (Str × Rec)} {k : Str}
    (h : k ∈ keysOf m) : ∃ e, alookup m k = some e := by
  cases hl : alookup m k with
  | none => exact absurd h ((alookup_eq_none_iff m k).mp hl)
  | some e => exact ⟨e, rfl⟩

/-- Presence of a binding is membership in the key list. -/
theorem alookup_isSome_iff (m : List (Str × Rec)) (k : Str) :
    (alookup m k).isSome = true ↔ k ∈ keysOf m := by
  constructor
  · intro h
    by_contra hn
    rw [(alookup_eq_none_iff m k).mpr hn] at h
    simp at h
  · intro hmem
    obtain ⟨e, he⟩ := alookup_isSome_of_mem_keys hmem
    rw [he]
    rfl

/-- An absent key is not in the recency order of a well-formed cache. -/
theorem not_mem_of_alookup_none {c : Cache} {L : List Str} {k : Str}
    (hI : CacheInv c L) (hnone : alookup c.entries k = none) : k ∉ L := by
  intro hmem
  exact (alookup_eq_none_iff _ _).mp hnone (hI.keys_perm.mem_iff.mpr hmem)

/-- Erasing the last element of a duplicate-free list drops it. -/
theorem erase_getLast_of_nodup {L : List Str} {j : Str}
    (hnd : L.Nodup) (hj : L.getLast? = some j) : L.erase j = L.dropLast := by
  have hne : L ≠ [] := by
    intro h
    subst h
    cases hj
  have heq : L.dropLast ++ [L.getLast hne] = L := List.dropLast_concat_getLast hne
  have hjj : L.getLast hne = j := by
    rw [List.getLast?_eq_getLast L hne] at hj
    exact (Option.some.injEq _ _).mp hj
  rw [hjj] at heq
  have hnd2 : (L.dropLast ++ [j]).Nodup := by
    rw [heq]
    exact hnd
  rcases List.nodup_append.mp hnd2 with ⟨_, _, hdisj⟩
  have hjd : j ∉ L.dropLast := fun hm => hdisj hm (List.mem_singleton.mpr rfl)
  conv_lhs => rw [← heq]
  rw [List.erase_append_right _ hjd, List.erase_cons_head, List.append_nil]

/-- Cache.removeEntry never touches the capacity. -/
theorem removeEntry_capacity (c : Cache) (k : Str) (e : Rec) :
    (Cache.removeEntry c k e).capacity = c.capacity := by
  cases hp : e.prev <;> cases hn : e.next <;> simp [Cache.removeEntry, hp, hn]

/-- Cache.addToFront never touches the capacity. -/
theorem addToFront_capacity (c : Cache) (k : Str) :
    (Cache.addToFront c k).capacity = c.capacity := by
  cases hh : c.head <;> cases ht : c.tail <;> simp [Cache.addToFront, hh, ht]

/-- Cache.moveToFront never touches the capacity. -/
theorem moveToFront_capacity (c : Cache) (k : Str) (e : Rec) :
    (Cache.moveToFront c k e).capacity = c.capacity := by
  by_cases hh : c.head = some k
  · simp [Cache.moveToFront, hh]
  · simp only [Cache.moveToFront, if_neg hh]
    cases hp : e.prev <;> cases hn : e.next <;> simp only [hp, hn] <;>
      rw [addToFront_capacity] <;> split <;> rfl

/-- Cache.evictLRU never touches the capacity. -/
theorem evictLRU_capacity (c : Cache) :
    (Cache.evictLRU c).capacity = c.capacity := by
  unfold Cache.evictLRU
  cases ht : c.tail with
  | none => rfl
  | some tk =>
    cases hl : alookup c.entries tk with
    | none => simp [hl]
    | some e => simp [hl, removeEntry_capacity]

/-- Cache.Set never touches the capacity. -/
theorem set_capacity (c : Cache) (k v : Str) (ttl : Int) (now : Nat) :
    (Cache.Set c k v ttl now).capacity = c.capacity := by
  unfold Cache.Set
  cases h1 : alookup c.entries k with
  | some e =>
    simp only [alookup_aupdate_eq, h1, Option.map_some']
    exact moveToFront_capacity _ _ _
  | none =>
    simp only
    split <;> split <;> simp [evictLRU_capacity, addToFront_capacity]

/-- Cache.removeEntry reads only the entries, links and size counters. -/
theorem removeEntry_cap_irrel (c : Cache) (x : Int) (k : Str) (e : Rec) :
    Cache.removeEntry { c with capacity := x } k e =
      { Cache.removeEntry c k e with capacity := x } := by
  cases hp : e.prev <;> cases hn : e.next <;> simp [Cache.removeEntry, hp, hn]

/-- Evicting from a state that exceeds its capacity by exactly one entry
restores the invariant, dropping the least recently used key. -/
theorem evictLRU_overflow (c : Cache) (M : List Str)
    (hchain : chain c.entries none M none)
    (hhead : c.head = M.head?)
    (htail : c.tail = M.getLast?)
    (hperm : List.Perm (keysOf c.entries) M)
    (hnd : M.Nodup)
    (hsize : c.size = (M.length : Int))
    (hM : M ≠ [])
    (hcap : c.capacity = (M.length : Int) - 1) :
    CacheInv (Cache.evictLRU c) M.dropLast := by
  cases hgl : M.getLast? with
  | none => exact absurd (List.getLast?_eq_none_iff.mp hgl) hM
  | some tk =>
    have htk : c.tail = some tk := by rw [htail, hgl]
    have htkM : tk ∈ M := List.mem_of_getLast?_eq_some hgl
    obtain ⟨e, he⟩ := alookup_isSome_of_mem_keys (hperm.mem_iff.mpr htkM)
    have hev : Cache.evictLRU c = Cache.removeEntry c tk e := by
      simp [Cache.evictLRU, htk, he]
    rw [hev]
    have hI' : CacheInv { c with capacity := c.size } M :=
      ⟨hchain, hhead, htail, hperm, hnd, hsize, le_refl _⟩
    have hrm := removeEntry_inv { c with capacity := c.size } M tk e hI' he
    rcases hrm with ⟨hI2, _, _, hsz2, _⟩
    rw [removeEntry_cap_irrel] at hI2 hsz2
    have herase : M.erase tk = M.dropLast := erase_getLast_of_nodup hnd hgl
    rw [herase] at hI2
    rcases hI2 with ⟨h1, h2, h3, h4, h5, h6, _⟩
    refine ⟨h1, h2, h3, h4, h5, h6, ?_⟩
    have hszr : (Cache.removeEntry c tk e).size = c.size - 1 := hsz2
    have hcapr : (Cache.removeEntry c tk e).capacity = c.capacity := removeEntry_capacity _ _ _
    rw [hszr, hcapr, hsize, hcap]

/-- Growing a linked state by one entry: the overflow eviction fires
exactly when the previous state was full, and then drops the last key. -/
theorem grow_step_inv (c3 : Cache) (K : List Str)
    (hchain : chain c3.entries none K none)
    (hhead : c3.head = K.head?)
    (htail : c3.tail = K.getLast?)
    (hperm : List.Perm (keysOf c3.entries) K)
    (hnd : K.Nodup)
    (hsize : c3.size = (K.length : Int)) :
    ((K.length : Int) ≤ c3.capacity →
       CacheInv (if c3.capacity < c3.size then Cache.evictLRU c3 else c3) K) ∧
    (c3.capacity = (K.length : Int) - 1 → K ≠ [] →
       CacheInv (if c3.capacity < c3.size then Cache.evictLRU c3 else c3) K.dropLast) := by
  constructor
  · intro hle
    rw [if_neg (by rw [hsize]; omega)]
    exact ⟨hchain, hhead, htail, hperm, hnd, hsize, by rw [hsize]; omega⟩
  · intro hcap hK
    have hK1 : 1 ≤ K.length := by
      cases K with
      | nil => exact absurd rfl hK
      | cons a t => simp
    rw [if_pos (by rw [hsize, hcap]; omega)]
    exact evictLRU_overflow c3 K hchain hhead htail hperm hnd hsize hK hcap


/-- A value-and-expiry update keeps the invariant and the recency order. -/
theorem aupdate_val_inv (c : Cache) (L : List Str) (f : Rec → Rec)
    (hf : ∀ r, (f r).prev = r.prev ∧ (f r).next = r.next) (k : Str)
    (hI : CacheInv c L) :
    CacheInv { c with entries := aupdate f c.entries k } L := by
  refine ⟨?_, hI.head_ok, hI.tail_ok, ?_, hI.nodup, hI.size_ok, hI.cap_ok⟩
  · exact chain_congr (fun kk _ => alookup_aupdate_map_links f hf c.entries k kk) hI.chain_ok
  · show List.Perm (keysOf (aupdate f c.entries k)) L
    rw [keysOf_aupdate]
    exact hI.keys_perm

/-- Inserting a fresh key with Cache.Set: the key is pushed at the front,
and the least recently used key is evicted exactly when the cache was
already full. -/
theorem set_fresh_inv (c : Cache) (L : List Str) (k v : Str) (ttl : Int) (now : Nat)
    (hI : CacheInv c L) (hnone : alookup c.entries k = none) :
    ((L.length : Int) < c.capacity → CacheInv (Cache.Set c k v ttl now) (k :: L)) ∧
    ((L.length : Int) = c.capacity → CacheInv (Cache.Set c k v ttl now) ((k :: L).dropLast)) := by
  have hkL : k ∉ L := not_mem_of_alookup_none hI hnone
  have hchain1 : chain (aset c.entries k { value := v, expiresAt := if 0 < ttl then now + ttl.toNat else 0, prev := none, next := none }) none L none := by
    refine chain_congr (fun kk hkk => ?_) hI.chain_ok
    have hne : k ≠ kk := fun heq => hkL (heq ▸ hkk)
    rw [alookup_aset_ne _ _ hne]
  have hfresh : alookup (aset c.entries k { value := v, expiresAt := if 0 < ttl then now + ttl.toNat else 0, prev := none, next := none }) k ≠ none := by
    rw [alookup_aset_eq]
    exact fun hcon => Option.noConfusion hcon
  rcases addToFront_spec { c with entries := aset c.entries k { value := v, expiresAt := if 0 < ttl then now + ttl.toNat else 0, prev := none, next := none } } k L hchain1 hI.head_ok hI.tail_ok hfresh hkL hI.nodup with ⟨hs1, hs2, hs3, hs4, hs5, hs6, _⟩
  have hperm3 : List.Perm (keysOf (Cache.addToFront { c with entries := aset c.entries k { value := v, expiresAt := if 0 < ttl then now + ttl.toNat else 0, prev := none, next := none } } k).entries) (k :: L) := by
    rw [hs4]
    show List.Perm (keysOf (aset c.entries k _)) (k :: L)
    rw [keysOf_aset_not_mem _ _ _ hnone]
    exact (hI.keys_perm.append_right [k]).trans (List.perm_append_singleton k L)
  have hsize3 : (Cache.addToFront { c with entries := aset c.entries k { value := v, expiresAt := if 0 < ttl then now + ttl.toNat else 0, prev := none, next := none } } k).size + 1 = ((k :: L).length : Int) := by
    rw [hs5]
    show c.size + 1 = ((k :: L).length : Int)
    rw [hI.size_ok, List.length_cons]
    push_cast
    ring
  have hgrow := grow_step_inv { Cache.addToFront { c with entries := aset c.entries k { value := v, expiresAt := if 0 < ttl then now + ttl.toNat else 0, prev := none, next := none } } k with size := (Cache.addToFront { c with entries := aset c.entries k { value := v, expiresAt := if 0 < ttl then now + ttl.toNat else 0, prev := none, next := none } } k).size + 1 } (k :: L) hs1 hs2 hs3 hperm3 (List.nodup_cons.mpr ⟨hkL, hI.nodup⟩) hsize3
  constructor
  · intro hlt
    unfold Cache.Set
    simp only [hnone]
    refine hgrow.1 ?_
    show ((k :: L).length : Int) ≤ (Cache.addToFront { c with entries := aset c.entries k { value := v, expiresAt := if 0 < ttl then now + ttl.toNat else 0, prev := none, next := none } } k).capacity
    rw [hs6]
    show ((k :: L).length : Int) ≤ c.capacity
    rw [List.length_cons]
    push_cast
    omega
  · intro heq
    unfold Cache.Set
    simp only [hnone]
    refine hgrow.2 ?_ (List.cons_ne_nil _ _)
    show (Cache.addToFront { c with entries := aset c.entries k { value := v, expiresAt := if 0 < ttl then now + ttl.toNat else 0, prev := none, next := none } } k).capacity = ((k :: L).length : Int) - 1
    rw [hs6]
    show c.capacity = ((k :: L).length : Int) - 1
    rw [← heq, List.length_cons]
    push_cast
    ring

/-- Cache.Set keeps the invariant: overwriting an existing key moves it to
the front of the recency order; a fresh key is pushed at the front, with
the eviction behaviour of set_fresh_inv. -/
theorem cacheSet_inv (c : Cache) (L : List Str) (k v : Str) (ttl : Int) (now : Nat)
    (hI : CacheInv c L) :
    (∀ e, alookup c.entries k = some e →
       CacheInv (Cache.Set c k v ttl now) (k :: L.erase k)) ∧
    (alookup c.entries k = none →
      (((L.length : Int) < c.capacity → CacheInv (Cache.Set c k v ttl now) (k :: L)) ∧
       ((L.length : Int) = c.capacity →
          CacheInv (Cache.Set c k v ttl now) ((k :: L).dropLast)))) := by
  constructor
  · intro e he
    have hI1 := aupdate_val_inv c L (fun r => { r with value := v, expiresAt := if 0 < ttl then now + ttl.toNat else 0 }) (fun r => ⟨rfl, rfl⟩) k hI
    have hlook1 : alookup (aupdate (fun r => { r with value := v, expiresAt := if 0 < ttl then now + ttl.toNat else 0 }) c.entries k) k = some { e with value := v, expiresAt := if 0 < ttl then now + ttl.toNat else 0 } := by
      rw [alookup_aupdate_eq, he]
      rfl
    have hmv := moveToFront_inv { c with entries := aupdate (fun r => { r with value := v, expiresAt := if 0 < ttl then now + ttl.toNat else 0 }) c.entries k } L k { e with value := v, expiresAt := if 0 < ttl then now + ttl.toNat else 0 } hI1 hlook1
    unfold Cache.Set
    simp only [he, alookup_aupdate_eq, Option.map_some']
    exact hmv.1
  · intro hnone
    exact set_fresh_inv c L k v ttl now hI hnone

/-- Branch behaviour of Cache.Get on a well-formed state: a miss leaves
the state alone, an expired hit removes the entry and misses, a live hit
returns the value and moves the key to the front. -/
theorem cacheGet_inv (c : Cache) (L : List Str) (k : Str) (now : Nat)
    (hI : CacheInv c L) :
    (alookup c.entries k = none → Cache.Get c k now = (none, false, c)) ∧
    (∀ e, alookup c.entries k = some e →
      ((e.expiresAt ≠ 0 ∧ e.expiresAt < now →
        (Cache.Get c k now).1 = none ∧ (Cache.Get c k now).2.1 = false ∧
        alookup (Cache.Get c k now).2.2.entries k = none ∧
        CacheInv (Cache.Get c k now).2.2 (L.erase k)) ∧
       (¬ (e.expiresAt ≠ 0 ∧ e.expiresAt < now) →
        (Cache.Get c k now).1 = some e.value ∧ (Cache.Get c k now).2.1 = true ∧
        (Cache.Get c k now).2.2.head = some k ∧
        CacheInv (Cache.Get c k now).2.2 (k :: L.erase k)))) := by
  constructor
  · intro hnone
    unfold Cache.Get
    rw [hnone]
  · intro e he
    constructor
    · intro hexp
      have hget : Cache.Get c k now = (none, false, Cache.removeEntry c k e) := by
        unfold Cache.Get
        simp only [he]
        rw [if_pos hexp]
      rcases removeEntry_inv c L k e hI he with ⟨h1, h2, _, _, _⟩
      rw [hget]
      exact ⟨rfl, rfl, h2, h1⟩
    · intro hexp
      have hget : Cache.Get c k now = (some e.value, true, Cache.moveToFront c k e) := by
        unfold Cache.Get
        simp only [he]
        rw [if_neg hexp]
      rcases moveToFront_inv c L k e hI he with ⟨h1, h2, _, _, _⟩
      rw [hget]
      exact ⟨rfl, rfl, h2, h1⟩

/-- Branch behaviour of Cache.Delete on a well-formed state. -/
theorem cacheDelete_inv (c : Cache) (L : List Str) (k : Str) (hI : CacheInv c L) :
    (alookup c.entries k = none → Cache.Delete c k = (false, c)) ∧
    (∀ e, alookup c.entries k = some e →
      (Cache.Delete c k).1 = true ∧
      alookup (Cache.Delete c k).2.entries k = none ∧
      CacheInv (Cache.Delete c k).2 (L.erase k)) := by
  constructor
  · intro hnone
    unfold Cache.Delete
    rw [hnone]
  · intro e he
    have hdel : Cache.Delete c k = (true, Cache.removeEntry c k e) := by
      unfold Cache.Delete
      rw [he]
    rcases removeEntry_inv c L k e hI he with ⟨h1, h2, _, _, _⟩
    rw [hdel]
    exact ⟨rfl, h2, h1⟩

/-- Cache.Clear resets to the empty well-formed state. -/
theorem cacheClear_inv (c : Cache) (L : List Str) (hI : CacheInv c L) :
    CacheInv (Cache.Clear c) [] := by
  refine ⟨trivial, rfl, rfl, List.Perm.refl _, List.nodup_nil, rfl, ?_⟩
  have h1 := hI.size_ok
  have h2 := hI.cap_ok
  show (0 : Int) ≤ c.capacity
  have h3 : (0 : Int) ≤ (L.length : Int) := Int.ofNat_nonneg _
  omega

/-- The cleanup iteration keeps the state well formed. -/
theorem cleanupGo_ok (now : Nat) :
    ∀ (ks : List Str) (c : Cache) (acc : Nat) (L : List Str), CacheInv c L →
      ∃ L2, CacheInv (Cache.cleanupGo now ks c acc).2 L2 := by
  intro ks
  induction ks with
  | nil => exact fun c acc L hI => ⟨L, hI⟩
  | cons k ks ih =>
    intro c acc L hI
    cases he : alookup c.entries k with
    | none =>
      have hstep : Cache.cleanupGo now (k :: ks) c acc = Cache.cleanupGo now ks c acc := by
        show (match alookup c.entries k with
          | none => Cache.cleanupGo now ks c acc
          | some e2 =>
            if e2.expiresAt ≠ 0 ∧ e2.expiresAt < now then
              Cache.cleanupGo now ks (Cache.removeEntry c k e2) (acc + 1)
            else Cache.cleanupGo now ks c acc) = Cache.cleanupGo now ks c acc
        rw [he]
      rw [hstep]
      exact ih c acc L hI
    | some e =>
      by_cases hexp : e.expiresAt ≠ 0 ∧ e.expiresAt < now
      · have hstep : Cache.cleanupGo now (k :: ks) c acc =
            Cache.cleanupGo now ks (Cache.removeEntry c k e) (acc + 1) := by
          show (match alookup c.entries k with
            | none => Cache.cleanupGo now ks c acc
            | some e2 =>
              if e2.expiresAt ≠ 0 ∧ e2.expiresAt < now then
                Cache.cleanupGo now ks (Cache.removeEntry c k e2) (acc + 1)
              else Cache.cleanupGo now ks c acc) =
            Cache.cleanupGo now ks (Cache.removeEntry c k e) (acc + 1)
          rw [he]
          show (if e.expiresAt ≠ 0 ∧ e.expiresAt < now then
              Cache.cleanupGo now ks (Cache.removeEntry c k e) (acc + 1)
            else Cache.cleanupGo now ks c acc) =
            Cache.cleanupGo now ks (Cache.removeEntry c k e) (acc + 1)
          rw [if_pos hexp]
        rw [hstep]
        exact ih (Cache.removeEntry c k e) (acc + 1) (L.erase k) (removeEntry_inv c L k e hI he).1
      · have hstep : Cache.cleanupGo now (k :: ks) c acc = Cache.cleanupGo now ks c acc := by
          show (match alookup c.entries k with
            | none => Cache.cleanupGo now ks c acc
            | some e2 =>
              if e2.expiresAt ≠ 0 ∧ e2.expiresAt < now then
                Cache.cleanupGo now ks (Cache.removeEntry c k e2) (acc + 1)
              else Cache.cleanupGo now ks c acc) = Cache.cleanupGo now ks c acc
          rw [he]
          show (if e.expiresAt ≠ 0 ∧ e.expiresAt < now then
              Cache.cleanupGo now ks (Cache.removeEntry c k e) (acc + 1)
            else Cache.cleanupGo now ks c acc) = Cache.cleanupGo now ks c acc
          rw [if_neg hexp]
        rw [hstep]
        exact ih c acc L hI

/-- A fresh cache is well formed with the empty recency order. -/
theorem newCache_inv (cap : Int) (hcap : 0 ≤ cap) : CacheInv (newCache cap) [] :=
  ⟨trivial, rfl, rfl, List.Perm.refl _, List.nodup_nil, rfl, hcap⟩

/-- Every public operation keeps the state well formed. -/
theorem applyOp_ok {c : Cache} (h : CacheOk c) (op : Op) : CacheOk (applyOp c op) := by
  rcases h with ⟨L, hI⟩
  cases op with
  | get k now =>
    show CacheOk (Cache.Get c k now).2.2
    cases he : alookup c.entries k with
    | none =>
      rw [(cacheGet_inv c L k now hI).1 he]
      exact ⟨L, hI⟩
    | some e =>
      by_cases hexp : e.expiresAt ≠ 0 ∧ e.expiresAt < now
      · exact ⟨L.erase k, (((cacheGet_inv c L k now hI).2 e he).1 hexp).2.2.2⟩
      · exact ⟨k :: L.erase k, (((cacheGet_inv c L k now hI).2 e he).2 hexp).2.2.2⟩
  | set k v ttl now =>
    show CacheOk (Cache.Set c k v ttl now)
    cases he : alookup c.entries k with
    | none =>
      have hle : (L.length : Int) ≤ c.capacity := hI.size_ok ▸ hI.cap_ok
      rcases lt_or_eq_of_le hle with hlt | heq
      · exact ⟨k :: L, ((cacheSet_inv c L k v ttl now hI).2 he).1 hlt⟩
      · exact ⟨(k :: L).dropLast, ((cacheSet_inv c L k v ttl now hI).2 he).2 heq⟩
    | some e =>
      exact ⟨k :: L.erase k, (cacheSet_inv c L k v ttl now hI).1 e he⟩
  | del k =>
    show CacheOk (Cache.Delete c k).2
    cases he : alookup c.entries k with
    | none =>
      rw [(cacheDelete_inv c L k hI).1 he]
      exact ⟨L, hI⟩
    | some e =>
      exact ⟨L.erase k, ((cacheDelete_inv c L k hI).2 e he).2.2⟩
  | cleanup now =>
    show CacheOk (Cache.Cleanup c now).2
    exact cleanupGo_ok now (keysOf c.entries) c 0 L hI
  | clear =>
    exact ⟨[], cacheClear_inv c L hI⟩

/-- Any sequence of public operations keeps the state well formed. -/
theorem runOps_ok {c : Cache} (h : CacheOk c) (ops : List Op) : CacheOk (runOps c ops) := by
  induction ops generalizing c with
  | nil => exact h
  | cons op ops ih => exact ih (applyOp_ok h op)

/-- Truncating the appended list before or after appending is the same. -/
theorem take_append_take (A B : List Str) (n : Nat) :
    (A ++ B.take n).take n = (A ++ B).take n := by
  rw [List.take_append_eq_append_take, List.take_append_eq_append_take, List.take_take,
    inf_eq_left.mpr (Nat.sub_le n A.length)]

/-- Running a batch of distinct fresh inserts: the resulting recency order
is the reversed insertion order truncated at the capacity. -/
theorem runSets_inv (cap : Int) :
    ∀ (ps : List (Str × Str)) (c : Cache) (L : List Str),
      CacheInv c L → c.capacity = cap →
      (ps.map Prod.fst).Nodup → (∀ x ∈ ps.map Prod.fst, x ∉ L) →
      CacheInv (runSets c ps) (((ps.map Prod.fst).reverse ++ L).take cap.toNat) ∧
      (runSets c ps).capacity = cap := by
  intro ps
  induction ps with
  | nil =>
    intro c L hI hcap _ _
    have hlen2 : L.length ≤ cap.toNat := by
      have h1 : (L.length : Int) ≤ cap := by
        rw [← hcap]
        exact hI.size_ok ▸ hI.cap_ok
      omega
    refine ⟨?_, hcap⟩
    simp only [List.map_nil, List.reverse_nil, List.nil_append]
    rw [List.take_of_length_le hlen2]
    exact hI
  | cons p rest ih =>
    intro c L hI hcap hnd hdisj
    obtain ⟨k, v⟩ := p
    simp only [List.map_cons] at hnd hdisj ⊢
    rcases List.nodup_cons.mp hnd with ⟨hknot, hndr⟩
    have hkL : k ∉ L := hdisj k (List.mem_cons_self _ _)
    have hnone : alookup c.entries k = none :=
      (alookup_eq_none_iff _ _).mpr (fun hm => hkL (hI.keys_perm.subset hm))
    have hstep : runSets c ((k, v) :: rest) = runSets (Cache.Set c k v 0 0) rest := rfl
    have hcap2 : (Cache.Set c k v 0 0).capacity = cap := by
      rw [set_capacity]
      exact hcap
    have hle : (L.length : Int) ≤ c.capacity := hI.size_ok ▸ hI.cap_ok
    rcases lt_or_eq_of_le hle with hlt | heqc
    · have hIc : CacheInv (Cache.Set c k v 0 0) (k :: L) :=
        ((cacheSet_inv c L k v 0 0 hI).2 hnone).1 hlt
      have hdisj2 : ∀ x ∈ rest.map Prod.fst, x ∉ k :: L := by
        intro x hx
        rw [List.mem_cons]
        rintro (hxk | hxL)
        · exact hknot (hxk ▸ hx)
        · exact hdisj x (List.mem_cons_of_mem _ hx) hxL
      have hres := ih (Cache.Set c k v 0 0) (k :: L) hIc hcap2 hndr hdisj2
      rw [hstep]
      refine ⟨?_, hres.2⟩
      have hgoal : (rest.map Prod.fst).reverse ++ (k :: L) =
          (k :: rest.map Prod.fst).reverse ++ L := by
        rw [List.reverse_cons, List.append_assoc]
        rfl
      rw [← hgoal]
      exact hres.1
    · have hIc : CacheInv (Cache.Set c k v 0 0) ((k :: L).dropLast) :=
        ((cacheSet_inv c L k v 0 0 hI).2 hnone).2 heqc
      have hdisj2 : ∀ x ∈ rest.map Prod.fst, x ∉ (k :: L).dropLast := by
        intro x hx hmem
        rw [List.dropLast_eq_take] at hmem
        have hmem2 := List.take_subset _ _ hmem
        rw [List.mem_cons] at hmem2
        rcases hmem2 with hxk | hxL
        · exact hknot (hxk ▸ hx)
        · exact hdisj x (List.mem_cons_of_mem _ hx) hxL
      have hres := ih (Cache.Set c k v 0 0) ((k :: L).dropLast) hIc hcap2 hndr hdisj2
      rw [hstep]
      refine ⟨?_, hres.2⟩
      have hlenL : L.length = cap.toNat := by
        have h1 : (L.length : Int) = cap := by
          rw [heqc, hcap]
        omega
      have hdrop : (k :: L).dropLast = (k :: L).take cap.toNat := by
        rw [List.dropLast_eq_take, List.length_cons, Nat.add_sub_cancel, hlenL]
      have heq2 : ((rest.map Prod.fst).reverse ++ (k :: L).dropLast).take cap.toNat =
          ((k :: rest.map Prod.fst).reverse ++ L).take cap.toNat := by
        rw [hdrop, take_append_take, List.reverse_cons, List.append_assoc]
        rfl
      rw [← heq2]
      exact hres.1

/-- C6: after every prefix of a sequence of public cache operations on a
cache created with capacity at least one, the size counter equals the
number of entries reachable from head via next links, equals the number
reachable from tail via prev links, equals the number of keys in the
entries map, and the size never exceeds the capacity. -/
theorem cache_size_reachability_invariant (cap : Int) (ops : List Op) (i : Nat)
    (c : Cache) (hcap : 1 ≤ cap) (hc : c = runOps (newCache cap) (ops.take i)) :
    c.size = ((reachHead c).length : Int) ∧
    (reachHead c).length = (reachTail c).length ∧
    (reachHead c).length = (keysOf c.entries).length ∧
    c.size ≤ c.capacity := by
  subst hc
  obtain ⟨L, hI⟩ := runOps_ok ⟨[], newCache_inv cap (le_trans zero_le_one hcap)⟩ (ops.take i)
  obtain ⟨hrh, hrt⟩ := cacheInv_reach hI
  refine ⟨?_, ?_, ?_, hI.cap_ok⟩
  · rw [hrh, hI.size_ok]
  · rw [hrh, hrt, List.length_reverse]
  · rw [hrh, hI.keys_perm.length_eq]

/-- Witness for C6: a single insert into a fresh cache of capacity two. -/
theorem cache_size_reachability_invariant_witness :
    (1 : Int) ≤ 2 ∧
    ((runOps (newCache 2) ([Op.set [0] [7] 3 5].take 1)).size =
        ((reachHead (runOps (newCache 2) ([Op.set [0] [7] 3 5].take 1))).length : Int) ∧
      (reachHead (runOps (newCache 2) ([Op.set [0] [7] 3 5].take 1))).length =
        (reachTail (runOps (newCache 2) ([Op.set [0] [7] 3 5].take 1))).length ∧
      (reachHead (runOps (newCache 2) ([Op.set [0] [7] 3 5].take 1))).length =
        (keysOf (runOps (newCache 2) ([Op.set [0] [7] 3 5].take 1)).entries).length ∧
      (runOps (newCache 2) ([Op.set [0] [7] 3 5].take 1)).size ≤
        (runOps (newCache 2) ([Op.set [0] [7] 3 5].take 1)).capacity) :=
  ⟨by decide, cache_size_reachability_invariant 2 [Op.set [0] [7] 3 5] 1
    (runOps (newCache 2) ([Op.set [0] [7] 3 5].take 1)) (by decide) rfl⟩

/-- C7: on a well-formed cache, Get of a missing key returns found=false
and leaves the state alone; Get of a present but expired entry (expiry set
and strictly past) removes the entry within the same call and returns
found=false; otherwise Get moves the entry to the head of the recency
order and returns the stored value with found=true. -/
theorem cache_get_semantics (c : Cache) (L : List Str) (k : Str) (now : Nat)
    (hI : CacheInv c L) :
    (alookup c.entries k = none → Cache.Get c k now = (none, false, c)) ∧
    (∀ e, alookup c.entries k = some e →
      ((e.expiresAt ≠ 0 ∧ e.expiresAt < now →
        (Cache.Get c k now).1 = none ∧ (Cache.Get c k now).2.1 = false ∧
        alookup (Cache.Get c k now).2.2.entries k = none ∧
        CacheInv (Cache.Get c k now).2.2 (L.erase k)) ∧
       (¬ (e.expiresAt ≠ 0 ∧ e.expiresAt < now) →
        (Cache.Get c k now).1 = some e.value ∧ (Cache.Get c k now).2.1 = true ∧
        (Cache.Get c k now).2.2.head = some k ∧
        CacheInv (Cache.Get c k now).2.2 (k :: L.erase k)))) :=
  cacheGet_inv c L k now hI

/-- Witness for C7: a live hit on a singleton cache. -/
theorem cache_get_semantics_witness :
    CacheInv (Cache.Set (newCache 2) [0] [5] 0 0) [[0]] ∧
    ((Cache.Get (Cache.Set (newCache 2) [0] [5] 0 0) [0] 9).1 = some [5] ∧
     (Cache.Get (Cache.Set (newCache 2) [0] [5] 0 0) [0] 9).2.1 = true ∧
     (Cache.Get (Cache.Set (newCache 2) [0] [5] 0 0) [0] 9).2.2.head = some [0] ∧
     CacheInv (Cache.Get (Cache.Set (newCache 2) [0] [5] 0 0) [0] 9).2.2 ([0] :: [[0]].erase [0])) :=
  ⟨by decide,
   ((cache_get_semantics (Cache.Set (newCache 2) [0] [5] 0 0) [[0]] [0] 9 (by decide)).2
     { value := [5], expiresAt := 0, prev := none, next := none } (by decide)).2 (by decide)⟩

/-- C8: with capacity at least one, after a batch of pairwise-distinct
non-expiring inserts longer than the capacity with no other operation in
between, the keys present in the cache are exactly the last
capacity-many inserted keys. -/
theorem cache_eviction_last_capacity_keys (cap : Int) (ps : List (Str × Str)) (k : Str)
    (hcap : 1 ≤ cap) (hnd : (ps.map Prod.fst).Nodup) (hN : cap.toNat < ps.length) :
    ((alookup (runSets (newCache cap) ps).entries k).isSome = true ↔
      k ∈ (ps.map Prod.fst).drop (ps.length - cap.toNat)) := by
  obtain ⟨hI, _⟩ := runSets_inv cap ps (newCache cap) []
    (newCache_inv cap (le_trans zero_le_one hcap)) rfl hnd (by simp)
  rw [List.append_nil] at hI
  rw [alookup_isSome_iff, hI.keys_perm.mem_iff, List.take_reverse, List.mem_reverse,
    List.length_map]

/-- Witness for C8: capacity one, two inserts, the second key survives. -/
theorem cache_eviction_last_capacity_keys_witness :
    (1 : Int) ≤ 1 ∧ ([[0], [2]] : List Str).Nodup ∧ (1 : Int).toNat < 2 ∧
    ((alookup (runSets (newCache 1) [([0], [1]), ([2], [3])]).entries [2]).isSome = true ↔
      [2] ∈ (([([0], [1]), ([2], [3])] : List (Str × Str)).map Prod.fst).drop
        (([([0], [1]), ([2], [3])] : List (Str × Str)).length - (1 : Int).toNat)) :=
  ⟨by decide, by decide, by decide,
   cache_eviction_last_capacity_keys 1 [([0], [1]), ([2], [3])] [2] (by decide) (by decide)
     (by decide)⟩
